import Mathlib

/-!
Shallow embedding of `txamqp/codec.py`, the AMQP 0-9-1 wire codec:
a `Codec` bound to a byte stream, with per-type encode/decode routines,
LSB-first bit packing, a tag-dispatched field-value decoder, and
size-prefixed field tables and arrays.  Bytes are modelled as natural
numbers, byte strings as `List Nat`, Python exceptions as an explicit
error type, and the `write`/`flushbits` mutual recursion is made total
with a fuel parameter (`noFuel` never occurs at the fuel bounds used,
as the lemmas below show).
-/

set_option maxRecDepth 2000
set_option maxHeartbeats 1000000

namespace TxAmqp

/-- Errors raised by the codec: `eof` models the `EOF` exception raised by
`Codec.read`, `structFail` models Python `struct.error` (bad argument range
on pack, or short data on unpack), `unknownType` models the
`ValueError("Unkown value type: ...")` raised by `field_value` carrying the
offending tag byte(s), `sizeMismatch` models the
`ValueError("Problem with size of field array ...")` carrying the real and
declared sizes, `valueFail` models the `ValueError("Uncompatible type")` of
`encode_decimal_value`, and `noFuel` is the fuel-exhaustion marker of the
embedding. -/
inductive Err where
  | eof
  | structFail
  | unknownType (tag : List Nat)
  | sizeMismatch (real declared : Int)
  | valueFail
  | noFuel
deriving DecidableEq, Repr

/-- State of a `Codec` object together with its underlying stream:
`input` holds the bytes not yet read, `output` the bytes written so far;
`nread`/`nwrote` are the cumulative counters and `incoming_bits` /
`outgoing_bits` the two bit queues of the Python object. -/
structure Codec where
  input : List Nat
  output : List Nat
  nread : Nat
  nwrote : Nat
  incoming_bits : List Bool
  outgoing_bits : List Bool
deriving DecidableEq, Repr

/-- A fresh codec bound to a stream holding `input` (the `__init__`). -/
def Codec.init (input : List Nat) : Codec :=
  ⟨input, [], 0, 0, [], []⟩

/-- Sequencing of a fallible step with its continuation: the implicit
exception propagation of the Python code. -/
def bindE {α β : Type} (r : Except Err α) (f : α → Except Err β) : Except Err β :=
  match r with
  | .error e => .error e
  | .ok a => f a

/-- Sequencing of a fallible step returning a value and the advanced codec
with a two-argument continuation. -/
def bind2 {α β : Type} (r : Except Err (α × Codec)) (f : α → Codec → Except Err β) :
    Except Err β :=
  match r with
  | .error e => .error e
  | .ok a => f a.1 a.2

/-- The `read` method: `stream.read(n)` returns up to `n` bytes; `EOF` is
raised exactly when `n > 0` and zero bytes came back; `nread` advances by
the number of bytes actually obtained. -/
def Codec.read (st : Codec) (n : Nat) : Except Err (List Nat × Codec) :=
  let data := st.input.take n
  if n > 0 ∧ data.length = 0 then .error .eof
  else .ok (data, { st with input := st.input.drop n, nread := st.nread + data.length })

/-- Big-endian byte list of width `w` for a value already reduced mod `2 ^ (8 * w)`. -/
def beBytes : Nat → Nat → List Nat
  | 0, _ => []
  | w + 1, v => beBytes w (v / 256) ++ [v % 256]

/-- Value of a big-endian byte list. -/
def fromBE (l : List Nat) : Nat :=
  l.foldl (fun a b => 256 * a + b) 0

/-- Python `struct.pack` for an unsigned big-endian field of `w` bytes:
out-of-range arguments raise `struct.error`. -/
def packUnsigned (w : Nat) (v : Int) : Except Err (List Nat) :=
  if 0 ≤ v ∧ v < (2 : Int) ^ (8 * w) then .ok (beBytes w v.toNat)
  else .error .structFail

/-- Python `struct.pack` for a signed big-endian field of `w` bytes
(two's complement): out-of-range arguments raise `struct.error`. -/
def packSigned (w : Nat) (v : Int) : Except Err (List Nat) :=
  if -(2 : Int) ^ (8 * w - 1) ≤ v ∧ v < (2 : Int) ^ (8 * w - 1) then
    .ok (beBytes w (v.emod ((2 : Int) ^ (8 * w))).toNat)
  else .error .structFail

/-- The `unpack` method specialised to an unsigned big-endian field of `w`
bytes: read `calcsize` bytes, then `struct.unpack` fails unless exactly that
many bytes were obtained. -/
def Codec.unpackUnsigned (st : Codec) (w : Nat) : Except Err (Nat × Codec) :=
  bind2 (st.read w) (fun data st1 =>
    if data.length = w then .ok (fromBE data, st1) else .error .structFail)

/-- The `unpack` method specialised to a signed big-endian field of `w`
bytes (two's complement). -/
def Codec.unpackSigned (st : Codec) (w : Nat) : Except Err (Int × Codec) :=
  bind2 (st.unpackUnsigned w) (fun u st1 =>
    if (u : Int) < (2 : Int) ^ (8 * w - 1) then .ok ((u : Int), st1)
    else .ok ((u : Int) - (2 : Int) ^ (8 * w), st1))

/-- One octet from at most eight booleans, LSB first: bit `i` of the result
is the `i`-th list entry (the `bytes[-1] |= 1 << index` accumulation of
`flushbits`). -/
def byteOf (bits : List Bool) : Nat :=
  bits.foldr (fun b acc => (if b then 1 else 0) + 2 * acc) 0

/-- The packing loop of `flushbits`: the queued booleans partitioned into
groups of eight (a fresh byte is started whenever `index == 0`), each group
packed LSB first; the group patterns are spelled out so the recursion is
structural. -/
def packBits : List Bool → List Nat
  | [] => []
  | [b0] => [byteOf [b0]]
  | [b0, b1] => [byteOf [b0, b1]]
  | [b0, b1, b2] => [byteOf [b0, b1, b2]]
  | [b0, b1, b2, b3] => [byteOf [b0, b1, b2, b3]]
  | [b0, b1, b2, b3, b4] => [byteOf [b0, b1, b2, b3, b4]]
  | [b0, b1, b2, b3, b4, b5] => [byteOf [b0, b1, b2, b3, b4, b5]]
  | [b0, b1, b2, b3, b4, b5, b6] => [byteOf [b0, b1, b2, b3, b4, b5, b6]]
  | b0 :: b1 :: b2 :: b3 :: b4 :: b5 :: b6 :: b7 :: rest =>
    byteOf [b0, b1, b2, b3, b4, b5, b6, b7] :: packBits rest

/-- The refill loop of `decode_bit`: `for i in range(8): append (bits >> i & 1 != 0)`. -/
def unpackOctet (byte : Nat) : List Bool :=
  (List.range 8).map byte.testBit

/-- The four mutually re-entrant operations of the encode path: `flush` is
the `flushbits` method, `wr s` the `write` method, `octs bs` the
`for byte in bytes: self.encode_octet(byte)` loop inside `flushbits`, and
`octet b` the `encode_octet` call made by that loop. -/
inductive EncReq where
  | flush
  | wr (s : List Nat)
  | octs (bs : List Nat)
  | octet (b : Nat)

/-- One fueled interpreter for the re-entrant encode methods, one Python
call per fuel step: `flushbits` packs the queue into octets, deletes the
queue (before any write), then emits each octet through `encode_octet` =
`pack("!B", ·)`, whose `write` re-enters `flushbits` — by then on an empty
queue; `write` itself flushes pending bits and appends to the stream. -/
def encStep : Nat → Codec → EncReq → Except Err Codec
  | 0, _, _ => .error .noFuel
  | fuel + 1, st, .flush =>
    if st.outgoing_bits.length > 0 then
      encStep fuel { st with outgoing_bits := [] } (.octs (packBits st.outgoing_bits))
    else .ok st
  | _ + 1, st, .octs [] => .ok st
  | fuel + 1, st, .octs (b :: bs) =>
    bindE (encStep fuel st (.octet b)) (fun st1 => encStep fuel st1 (.octs bs))
  | fuel + 1, st, .octet b =>
    bindE (packUnsigned 1 (b : Int)) (fun bytes => encStep fuel st (.wr bytes))
  | fuel + 1, st, .wr s =>
    bindE (encStep fuel st .flush) (fun st1 =>
      .ok { st1 with output := st1.output ++ s, nwrote := st1.nwrote + s.length })

/-- `write` at a fuel bound sufficient for every reachable call (the
recursion depth is bounded by the number of flushed octets plus a constant,
as proved below). -/
def Codec.write (st : Codec) (s : List Nat) : Except Err Codec :=
  encStep (st.outgoing_bits.length + 9) st (.wr s)

/-- `flushbits` at a fuel bound sufficient for every reachable call. -/
def Codec.flushbits (st : Codec) : Except Err Codec :=
  encStep (st.outgoing_bits.length + 8) st .flush

/-- The `flush` method (`stream.flush()` is a no-op on the model). -/
def Codec.flush (st : Codec) : Except Err Codec :=
  st.flushbits

/-- The `pack` method: `struct.pack` may fail before anything is written;
otherwise its bytes go through `write`. -/
def Codec.packW (st : Codec) (r : Except Err (List Nat)) : Except Err Codec :=
  bindE r (fun bytes => st.write bytes)

/-- `encode_bit`: append the boolean to the outgoing queue, no I/O. -/
def Codec.encode_bit (st : Codec) (o : Bool) : Codec :=
  { st with outgoing_bits := st.outgoing_bits ++ [o] }

/-- `encode_boolean` = `pack("!?", o)`: one byte, `1` for true, `0` for false. -/
def Codec.encode_boolean (st : Codec) (o : Bool) : Except Err Codec :=
  st.packW (.ok [if o then 1 else 0])

/-- `encode_short_short_uint` = `pack("!B", o)`. -/
def Codec.encode_short_short_uint (st : Codec) (o : Int) : Except Err Codec :=
  st.packW (packUnsigned 1 o)

/-- `encode_short_short_int` = `pack("!b", o)`. -/
def Codec.encode_short_short_int (st : Codec) (o : Int) : Except Err Codec :=
  st.packW (packSigned 1 o)

/-- `encode_short_uint` = `pack("!H", o)`. -/
def Codec.encode_short_uint (st : Codec) (o : Int) : Except Err Codec :=
  st.packW (packUnsigned 2 o)

/-- `encode_short_int` = `pack("!h", o)`. -/
def Codec.encode_short_int (st : Codec) (o : Int) : Except Err Codec :=
  st.packW (packSigned 2 o)

/-- `encode_long_uint` = `pack("!L", o)`. -/
def Codec.encode_long_uint (st : Codec) (o : Int) : Except Err Codec :=
  st.packW (packUnsigned 4 o)

/-- `encode_long_int` = `pack("!l", o)`. -/
def Codec.encode_long_int (st : Codec) (o : Int) : Except Err Codec :=
  st.packW (packSigned 4 o)

/-- `encode_long_long_uint` = `pack("!Q", o)`. -/
def Codec.encode_long_long_uint (st : Codec) (o : Int) : Except Err Codec :=
  st.packW (packUnsigned 8 o)

/-- `encode_octet` = `encode_short_short_uint` (the exported method, outside
the flush loop). -/
def Codec.encode_octet (st : Codec) (o : Int) : Except Err Codec :=
  st.encode_short_short_uint o

/-- `encode_long` = `encode_long_uint`. -/
def Codec.encode_long (st : Codec) (o : Int) : Except Err Codec :=
  st.encode_long_uint o

/-- `decode_short_short_uint` = `unpack("!B")`. -/
def Codec.decode_short_short_uint (st : Codec) : Except Err (Nat × Codec) :=
  st.unpackUnsigned 1

/-- `decode_short_short_int` = `unpack("!b")`. -/
def Codec.decode_short_short_int (st : Codec) : Except Err (Int × Codec) :=
  st.unpackSigned 1

/-- `decode_short_uint` = `unpack("!H")`. -/
def Codec.decode_short_uint (st : Codec) : Except Err (Nat × Codec) :=
  st.unpackUnsigned 2

/-- `decode_short_int` = `unpack("!h")`. -/
def Codec.decode_short_int (st : Codec) : Except Err (Int × Codec) :=
  st.unpackSigned 2

/-- `decode_long_uint` = `unpack("!L")`. -/
def Codec.decode_long_uint (st : Codec) : Except Err (Nat × Codec) :=
  st.unpackUnsigned 4

/-- `decode_long_int` = `unpack("!l")`. -/
def Codec.decode_long_int (st : Codec) : Except Err (Int × Codec) :=
  st.unpackSigned 4

/-- `decode_long_long_uint` = `unpack("!Q")`. -/
def Codec.decode_long_long_uint (st : Codec) : Except Err (Nat × Codec) :=
  st.unpackUnsigned 8

/-- `decode_long_long_int` = `unpack("!q")`. -/
def Codec.decode_long_long_int (st : Codec) : Except Err (Int × Codec) :=
  st.unpackSigned 8

/-- `decode_boolean` = `unpack("!?")`: one byte, true iff nonzero. -/
def Codec.decode_boolean (st : Codec) : Except Err (Bool × Codec) :=
  bind2 (st.unpackUnsigned 1) (fun v st1 => .ok (v != 0, st1))

/-- `decode_float` = `unpack("!f")`: four bytes, kept as the raw bit
pattern (float semantics are not needed by any claim). -/
def Codec.decode_float (st : Codec) : Except Err (Nat × Codec) :=
  st.unpackUnsigned 4

/-- `decode_double` = `unpack("!d")`: eight bytes, raw bit pattern. -/
def Codec.decode_double (st : Codec) : Except Err (Nat × Codec) :=
  st.unpackUnsigned 8

/-- `decode_octet` = `decode_short_short_uint`. -/
def Codec.decode_octet (st : Codec) : Except Err (Nat × Codec) :=
  st.decode_short_short_uint

/-- `decode_timestamp` = `decode_long_long_uint`. -/
def Codec.decode_timestamp (st : Codec) : Except Err (Nat × Codec) :=
  st.decode_long_long_uint

/-- `decode_none` = `unpack("!x")`: `calcsize("!x") == 1`, so one pad byte
is read from the stream and `struct.unpack` yields the empty tuple. -/
def Codec.decode_none (st : Codec) : Except Err (Unit × Codec) :=
  bind2 (st.read 1) (fun data st1 =>
    if data.length = 1 then .ok ((), st1) else .error .structFail)

/-- `decode_bit`: refill the incoming queue from one octet (LSB first) when
it is empty, then pop the front boolean. -/
def Codec.decode_bit (st : Codec) : Except Err (Bool × Codec) :=
  match st.incoming_bits with
  | b :: rest => .ok (b, { st with incoming_bits := rest })
  | [] =>
    bind2 st.decode_octet (fun byte st1 =>
      match unpackOctet byte with
      | [] => .error .structFail
      | b :: rest => .ok (b, { st1 with incoming_bits := rest }))

/-- A sequence of `encode_bit` calls, one per boolean. -/
def Codec.encode_bits (st : Codec) (l : List Bool) : Codec :=
  l.foldl Codec.encode_bit st

/-- A sequence of `n` `decode_bit` calls, collecting the booleans in order. -/
def decodeBitsN : Nat → Codec → Except Err (List Bool × Codec)
  | 0, st => .ok ([], st)
  | n + 1, st =>
    bind2 st.decode_bit (fun b st1 =>
      bind2 (decodeBitsN n st1) (fun bs st2 => .ok (b :: bs, st2)))

/-- `decode_decimal_value`: a one-byte unsigned scale, then a four-byte
unsigned raw value, denoting `raw * 10 ^ (-scale)` as an exact decimal. -/
def Codec.decode_decimal_value (st : Codec) : Except Err ((Nat × Nat) × Codec) :=
  bind2 st.decode_short_short_uint (fun decimals st1 =>
    bind2 st1.decode_long_uint (fun raw st2 => .ok ((decimals, raw), st2)))

/-- `encode_short_string`: a one-byte unsigned length then the raw bytes. -/
def Codec.encode_short_string (st : Codec) (s : List Nat) : Except Err Codec :=
  bindE (st.encode_short_short_uint s.length) (fun st1 => st1.write s)

/-- `encode_long_string` as the source writes it: the length goes through
`encode_short_short_uint`, the ONE-byte length writer, then the raw bytes. -/
def Codec.encode_long_string (st : Codec) (s : List Nat) : Except Err Codec :=
  bindE (st.encode_short_short_uint s.length) (fun st1 => st1.write s)

/-- `decode_short_string`: a one-byte unsigned length, then that many bytes
(whatever `read` actually obtained is returned unchecked). -/
def Codec.decode_short_string (st : Codec) : Except Err (List Nat × Codec) :=
  bind2 st.decode_short_short_uint (fun size st1 => st1.read size)

/-- `decode_long_string`: a four-byte unsigned length, then that many bytes. -/
def Codec.decode_long_string (st : Codec) : Except Err (List Nat × Codec) :=
  bind2 st.decode_long_uint (fun size st1 => st1.read size)

/-- `encode_shortstr` = `encode_short_string`. -/
def Codec.encode_shortstr (st : Codec) (s : List Nat) : Except Err Codec :=
  st.encode_short_string s

/-- `enc_str("!L", s)`: a four-byte unsigned length then the raw bytes. -/
def Codec.enc_str4 (st : Codec) (s : List Nat) : Except Err Codec :=
  bindE (st.packW (packUnsigned 4 s.length)) (fun st1 => st1.write s)

/-- `encode_longstr` on a byte string: `enc_str("!L", s)` (the `dict` branch
of the source delegates to `encode_table` and is never reached from the
field-table encoder, whose values here are byte strings or integers). -/
def Codec.encode_longstr (st : Codec) (s : List Nat) : Except Err Codec :=
  st.enc_str4 s

/-- A Python `Decimal` as coefficient and exponent: the denoted value is
`coeff * 10 ^ exp`. -/
structure PyDec where
  coeff : Int
  exp : Int
deriving DecidableEq, Repr

/-- Trailing-zero stripping performed by `Decimal.normalize` on a nonzero
value: divide the coefficient by ten while it is divisible, bumping the
exponent.  The fuel argument makes the recursion structural; `|c| + 1`
steps always suffice, since each strip divides the coefficient by ten. -/
def stripZerosF : Nat → Int → Int → Int × Int
  | 0, c, e => (c, e)
  | fuel + 1, c, e =>
    if c % 10 = 0 ∧ c ≠ 0 then stripZerosF fuel (c / 10) (e + 1)
    else (c, e)

/-- Trailing-zero stripping at its sufficient fuel bound. -/
def stripZeros (c e : Int) : Int × Int :=
  stripZerosF (c.natAbs + 1) c e

/-- `Decimal.normalize`: reduce to minimal coefficient; a zero value gets
exponent zero. -/
def PyDec.normalize (d : PyDec) : PyDec :=
  if d.coeff = 0 then ⟨0, 0⟩
  else
    let p := stripZeros d.coeff d.exp
    ⟨p.1, p.2⟩

/-- `encode_decimal_value`: normalize, then write `pack("!c", "D")` (the
byte 68), `pack("!B", decimals)` and `pack("!i", raw)`, where for a
strictly negative exponent `decimals = -exp` and `raw` is the value scaled
to an integer, and otherwise `decimals = 0` and `raw = int(value)` (the
input is typed `PyDec`, so the `isinstance` failure branch is dead). -/
def Codec.encode_decimal_value (st : Codec) (d : PyDec) : Except Err Codec :=
  if d.normalize.exp < 0 then
    bindE (st.write [68]) (fun st1 =>
      bindE (st1.packW (packUnsigned 1 ((-d.normalize.exp).toNat : Int))) (fun st2 =>
        st2.packW (packSigned 4 d.normalize.coeff)))
  else
    bindE (st.write [68]) (fun st1 =>
      bindE (st1.packW (packUnsigned 1 0)) (fun st2 =>
        st2.packW (packSigned 4 (d.normalize.coeff * 10 ^ d.normalize.exp.toNat))))

/-- The AMQP field values producible by the decoder: booleans, integers of
every width (Python collapses them to `int`), raw-bit floats, decimals as
`(scale, raw)`, byte strings, arrays, tables, and the void marker. -/
inductive FieldValue where
  | bool (b : Bool)
  | int (v : Int)
  | float32 (raw : Nat)
  | float64 (raw : Nat)
  | decimal (scale : Nat) (raw : Nat)
  | str (s : List Nat)
  | array (elems : List FieldValue)
  | table (entries : List (List Nat × FieldValue))
  | void
deriving Repr

/-- Python dict assignment `result[key] = v` on an association list:
replace the first binding of `key` if present, else append. -/
def dictSet (l : List (List Nat × FieldValue)) (k : List Nat) (v : FieldValue) :
    List (List Nat × FieldValue) :=
  match l with
  | [] => [(k, v)]
  | (k', v') :: t => if k' = k then (k, v) :: t else (k', v') :: dictSet t k v

/-- Lift a decoded component into a `FieldValue` result. -/
def mapV {α : Type} (f : α → FieldValue)
    (r : Except Err (α × Codec)) : Except Err (FieldValue × Codec) :=
  bind2 r (fun a st => .ok (f a, st))

mutual

/-- The `field_value` dispatcher: read one tag byte, then dispatch. -/
def field_valueF : Nat → Codec → Except Err (FieldValue × Codec)
  | 0, _ => .error .noFuel
  | fuel + 1, st =>
    bind2 (st.read 1) (fun t st1 => dispatchF fuel t st1)
termination_by structural fuel _ => fuel

/-- The `if type == ... elif ...` chain of `field_value` over the eighteen
recognized tags; any other tag raises the unknown-type error carrying the
offending byte. -/
def dispatchF : Nat → List Nat → Codec → Except Err (FieldValue × Codec)
  | 0, _, _ => .error .noFuel
  | fuel + 1, t, st1 =>
    if t = [116] then mapV .bool st1.decode_boolean
    else if t = [98] then mapV .int st1.decode_short_short_int
    else if t = [66] then mapV (fun n : Nat => .int n) st1.decode_short_short_uint
    else if t = [85] then mapV .int st1.decode_short_int
    else if t = [117] then mapV (fun n : Nat => .int n) st1.decode_short_uint
    else if t = [73] then mapV .int st1.decode_long_int
    else if t = [105] then mapV (fun n : Nat => .int n) st1.decode_long_uint
    else if t = [76] then mapV .int st1.decode_long_long_int
    else if t = [108] then mapV (fun n : Nat => .int n) st1.decode_long_long_uint
    else if t = [102] then mapV .float32 st1.decode_float
    else if t = [100] then mapV .float64 st1.decode_double
    else if t = [68] then mapV (fun p => .decimal p.1 p.2) st1.decode_decimal_value
    else if t = [115] then mapV .str st1.decode_short_string
    else if t = [83] then mapV .str st1.decode_long_string
    else if t = [65] then mapV .array (decode_field_arrayF fuel st1)
    else if t = [84] then mapV (fun n : Nat => .int n) st1.decode_timestamp
    else if t = [70] then mapV .table (decode_field_tableF fuel st1)
    else if t = [86] then mapV (fun _ => .void) st1.decode_none
    else .error (.unknownType t)
termination_by structural fuel _ _ => fuel

/-- `decode_field_array`: read a four-byte signed size, then loop. -/
def decode_field_arrayF : Nat → Codec → Except Err (List FieldValue × Codec)
  | 0, _ => .error .noFuel
  | fuel + 1, st =>
    bind2 st.decode_long_int (fun size st1 => arrayLoopF fuel st1 st1.nread size [])
termination_by structural fuel _ => fuel

/-- The array loop: `while nread - start < size` decode one field value;
on exit, a consumed count different from the declared size raises the
framing-mismatch error. -/
def arrayLoopF : Nat → Codec → Nat → Int → List FieldValue →
    Except Err (List FieldValue × Codec)
  | 0, _, _, _, _ => .error .noFuel
  | fuel + 1, st, start, size, acc =>
    if (st.nread : Int) - start < size then
      bind2 (field_valueF fuel st) (fun v st1 =>
        arrayLoopF fuel st1 start size (acc ++ [v]))
    else
      if (st.nread : Int) - start ≠ size then
        .error (.sizeMismatch ((st.nread : Int) - start) size)
      else .ok (acc, st)
termination_by structural fuel _ _ _ _ => fuel

/-- `decode_field_table`: read a four-byte unsigned size, then loop. -/
def decode_field_tableF : Nat → Codec → Except Err (List (List Nat × FieldValue) × Codec)
  | 0, _ => .error .noFuel
  | fuel + 1, st =>
    bind2 st.decode_long_uint (fun size st1 => tableLoopF fuel st1 st1.nread size [])
termination_by structural fuel _ => fuel

/-- The table loop: `while nread - start < size` read a short-string key
and one field value; no exact-size check is performed on exit. -/
def tableLoopF : Nat → Codec → Nat → Nat → List (List Nat × FieldValue) →
    Except Err (List (List Nat × FieldValue) × Codec)
  | 0, _, _, _, _ => .error .noFuel
  | fuel + 1, st, start, size, acc =>
    if (st.nread : Int) - start < (size : Int) then
      bind2 st.decode_short_string (fun key st1 =>
        bind2 (field_valueF fuel st1) (fun v st2 =>
          tableLoopF fuel st2 start size (dictSet acc key v)))
    else .ok (acc, st)
termination_by structural fuel _ _ _ _ => fuel

end

/-- The values the field-table encoder supports: byte strings (Python
`basestring`) and integers. -/
inductive PyVal where
  | str (s : List Nat)
  | int (v : Int)
deriving DecidableEq, Repr

/-- One tagged value of the field-table encoder: strings get the tag `S`
(byte 83) and a long-string payload through `encode_longstr`; every other
value gets the tag `I` (byte 73) and goes through `encode_long`, the
UNSIGNED four-byte packer. -/
def encodeTableValue (st : Codec) (v : PyVal) : Except Err Codec :=
  match v with
  | .str s => bindE (st.write [83]) (fun st1 => st1.encode_longstr s)
  | .int n => bindE (st.write [73]) (fun st1 => st1.encode_long n)

/-- The `for key, value in tbl.items()` loop of `encode_field_table`,
running on the fresh inner codec. -/
def tableBody : Codec → List (List Nat × PyVal) → Except Err Codec
  | st, [] => .ok st
  | st, (k, v) :: rest =>
    bindE (st.encode_shortstr k) (fun st1 =>
      bindE (encodeTableValue st1 v) (fun st2 => tableBody st2 rest))

/-- `encode_field_table`: encode all pairs into a fresh codec over a fresh
stream, then write a four-byte unsigned length of that body and the body. -/
def Codec.encode_field_table (st : Codec) (tbl : List (List Nat × PyVal)) :
    Except Err Codec :=
  bindE (tableBody (Codec.init []) tbl) (fun inner =>
    bindE (st.encode_long_uint inner.output.length) (fun st1 =>
      st1.write inner.output))

/-- The state after appending `s` to the output stream. -/
def appendOut (st : Codec) (s : List Nat) : Codec :=
  { st with output := st.output ++ s, nwrote := st.nwrote + s.length }

/-- The wire bytes of one tagged value in the field-table body: `S` then a
four-byte length and the bytes for a string, `I` then four unsigned bytes
for an integer. -/
def tagBytes : PyVal → List Nat
  | .str s => 83 :: (beBytes 4 s.length ++ s)
  | .int n => 73 :: beBytes 4 n.toNat

/-- The wire bytes of one field-table entry: a short-string key then the
tagged value. -/
def entryBytes (kv : List Nat × PyVal) : List Nat :=
  (kv.1.length :: kv.1) ++ tagBytes kv.2

/-- The wire bytes of a whole field-table body. -/
def bodyBytes : List (List Nat × PyVal) → List Nat
  | [] => []
  | kv :: t => entryBytes kv ++ bodyBytes t

/-- A value the field-table encoder can emit without a `struct.error`:
string lengths must fit the four-byte field and integers must fit the
unsigned four-byte packer. -/
def valEnc : PyVal → Prop
  | .str s => s.length < 2 ^ 32
  | .int n => 0 ≤ n ∧ n < 2 ^ 32

/-- An encodable field-table entry: the key must fit the one-byte length
and the value must satisfy `valEnc`. -/
def entryEnc (kv : List Nat × PyVal) : Prop :=
  kv.1.length ≤ 255 ∧ valEnc kv.2

/-- The field value the decoder reconstructs from an encoded `PyVal`: the
four unsigned bytes of an `I`-tagged integer are re-read through the SIGNED
four-byte decoder, so values of `2 ^ 31` and above come back shifted down
by `2 ^ 32`. -/
def decodedVal : PyVal → FieldValue
  | .str s => .str s
  | .int n => .int (if (n.toNat : Int) < 2 ^ 31 then (n.toNat : Int) else (n.toNat : Int) - 2 ^ 32)

/-- The field value a faithful decoder would return for an encodable
`PyVal`, matching Python equality of the original table values. -/
def pyToField : PyVal → FieldValue
  | .str s => .str s
  | .int n => .int n

/-! ### Basic sequencing lemmas -/

theorem bindE_ok {α β : Type} (a : α) (f : α → Except Err β) :
    bindE (.ok a) f = f a := rfl

theorem bindE_err {α β : Type} (e : Err) (f : α → Except Err β) :
    bindE (.error e) f = (.error e : Except Err β) := rfl

theorem bind2_ok {α β : Type} (a : α) (stx : Codec) (f : α → Codec → Except Err β) :
    bind2 (.ok (a, stx)) f = f a stx := rfl

theorem bind2_err {α β : Type} (e : Err) (f : α → Codec → Except Err β) :
    bind2 (.error e) f = (.error e : Except Err β) := rfl

/-! ### Byte-level lemmas -/

theorem beBytes_length (w v : Nat) : (beBytes w v).length = w := by
  induction w generalizing v with
  | zero => rfl
  | succ w ih => simp [beBytes, ih]

theorem beBytes_all_lt (w v : Nat) : ∀ b ∈ beBytes w v, b < 256 := by
  induction w generalizing v with
  | zero => simp [beBytes]
  | succ w ih =>
    intro b hb
    simp only [beBytes, List.mem_append, List.mem_singleton] at hb
    rcases hb with hb | hb
    · exact ih _ _ hb
    · omega

theorem fromBE_append_singleton (l : List Nat) (b : Nat) :
    fromBE (l ++ [b]) = 256 * fromBE l + b := by
  simp [fromBE, List.foldl_append]

theorem fromBE_beBytes (w v : Nat) : fromBE (beBytes w v) = v % 2 ^ (8 * w) := by
  induction w generalizing v with
  | zero => simp [beBytes, fromBE]; omega
  | succ w ih =>
    rw [beBytes, fromBE_append_singleton, ih]
    have h2 : (2 : Nat) ^ (8 * (w + 1)) = 256 * 2 ^ (8 * w) := by
      rw [show 8 * (w + 1) = 8 + 8 * w by ring, pow_add]
      norm_num
    rw [h2, Nat.mod_mul]
    exact Nat.add_comm _ _

theorem fromBE_beBytes_of_lt {w v : Nat} (h : v < 2 ^ (8 * w)) :
    fromBE (beBytes w v) = v := by
  rw [fromBE_beBytes, Nat.mod_eq_of_lt h]

theorem fromBE_singleton (b : Nat) : fromBE [b] = b := by
  simp [fromBE]

/-! ### Read and unpack lemmas -/

theorem read_exact {st : Codec} {data rest : List Nat} (h : st.input = data ++ rest) :
    st.read data.length =
      .ok (data, { st with input := rest, nread := st.nread + data.length }) := by
  have hc : ¬(data.length > 0 ∧ (st.input.take data.length).length = 0) := by
    rw [h, List.take_left]; omega
  simp only [Codec.read]
  rw [if_neg hc, h, List.take_left, List.drop_left]

theorem unpackUnsigned_exact {st : Codec} {data rest : List Nat} {w : Nat}
    (h : st.input = data ++ rest) (hw : data.length = w) :
    st.unpackUnsigned w =
      .ok (fromBE data, { st with input := rest, nread := st.nread + w }) := by
  subst hw
  unfold Codec.unpackUnsigned
  rw [read_exact h]
  simp only [bind2_ok]
  simp

theorem unpackSigned_exact {st : Codec} {data rest : List Nat} {w : Nat}
    (h : st.input = data ++ rest) (hw : data.length = w) :
    st.unpackSigned w =
      .ok ((if (fromBE data : Int) < 2 ^ (8 * w - 1) then (fromBE data : Int)
            else (fromBE data : Int) - 2 ^ (8 * w)),
           { st with input := rest, nread := st.nread + w }) := by
  unfold Codec.unpackSigned
  rw [unpackUnsigned_exact h hw]
  simp only [bind2_ok]
  split <;> rfl

/-! ### Bit-packing lemmas -/

theorem byteOf_lt (bits : List Bool) : byteOf bits < 2 ^ bits.length := by
  induction bits with
  | nil => simp [byteOf]
  | cons b bs ih =>
    simp only [byteOf, List.foldr_cons, List.length_cons] at *
    rw [pow_succ]
    cases b <;> simp <;> omega

theorem packBits_cons (b : Bool) (bs : List Bool) :
    packBits (b :: bs) = byteOf ((b :: bs).take 8) :: packBits ((b :: bs).drop 8) := by
  rcases bs with _ | ⟨b1, bs⟩
  · rfl
  rcases bs with _ | ⟨b2, bs⟩
  · rfl
  rcases bs with _ | ⟨b3, bs⟩
  · rfl
  rcases bs with _ | ⟨b4, bs⟩
  · rfl
  rcases bs with _ | ⟨b5, bs⟩
  · rfl
  rcases bs with _ | ⟨b6, bs⟩
  · rfl
  rcases bs with _ | ⟨b7, bs⟩
  · rfl
  rfl

theorem packBits_length_aux :
    ∀ (n : Nat) (bits : List Bool), bits.length ≤ n →
      (packBits bits).length = (bits.length + 7) / 8 := by
  intro n
  induction n with
  | zero =>
    intro bits h
    have hb : bits = [] := List.eq_nil_of_length_eq_zero (by omega)
    subst hb
    simp [packBits]
  | succ n ih =>
    intro bits h
    cases bits with
    | nil => simp [packBits]
    | cons b bs =>
      rw [packBits_cons]
      have hd : ((b :: bs).drop 8).length ≤ n := by
        rw [List.length_drop]
        simp only [List.length_cons] at h ⊢
        omega
      rw [List.length_cons, ih _ hd, List.length_drop]
      simp only [List.length_cons]
      omega

theorem packBits_length (bits : List Bool) :
    (packBits bits).length = (bits.length + 7) / 8 :=
  packBits_length_aux bits.length bits le_rfl

theorem packBits_all_lt_aux :
    ∀ (n : Nat) (bits : List Bool), bits.length ≤ n →
      ∀ x ∈ packBits bits, x < 256 := by
  intro n
  induction n with
  | zero =>
    intro bits h
    have hb : bits = [] := List.eq_nil_of_length_eq_zero (by omega)
    subst hb
    simp [packBits]
  | succ n ih =>
    intro bits h
    cases bits with
    | nil => simp [packBits]
    | cons b bs =>
      rw [packBits_cons]
      intro x hx
      rcases List.mem_cons.mp hx with hx | hx
      · subst hx
        calc byteOf ((b :: bs).take 8) < 2 ^ ((b :: bs).take 8).length := byteOf_lt _
          _ ≤ 2 ^ 8 := by
              apply Nat.pow_le_pow_right (by norm_num)
              simp [List.length_take]
          _ = 256 := by norm_num
      · have hd : ((b :: bs).drop 8).length ≤ n := by
          rw [List.length_drop]
          simp only [List.length_cons] at h ⊢
          omega
        exact ih _ hd x hx

theorem packBits_all_lt (bits : List Bool) : ∀ x ∈ packBits bits, x < 256 :=
  packBits_all_lt_aux bits.length bits le_rfl

/-! ### Flush and write lemmas -/

theorem appendOut_appendOut (st : Codec) (a b : List Nat) :
    appendOut (appendOut st a) b = appendOut st (a ++ b) := by
  simp [appendOut]
  omega

theorem appendOut_outgoing (st : Codec) (s : List Nat) :
    (appendOut st s).outgoing_bits = st.outgoing_bits := rfl

theorem encStep_flush (fuel : Nat) (st : Codec) :
    encStep (fuel + 1) st .flush =
      if st.outgoing_bits.length > 0 then
        encStep fuel { st with outgoing_bits := [] } (.octs (packBits st.outgoing_bits))
      else .ok st := rfl

theorem encStep_octs_nil (fuel : Nat) (st : Codec) :
    encStep (fuel + 1) st (.octs []) = .ok st := rfl

theorem encStep_octs_cons (fuel : Nat) (st : Codec) (b : Nat) (bs : List Nat) :
    encStep (fuel + 1) st (.octs (b :: bs)) =
      bindE (encStep fuel st (.octet b)) (fun st1 => encStep fuel st1 (.octs bs)) := rfl

theorem encStep_octet (fuel : Nat) (st : Codec) (b : Nat) :
    encStep (fuel + 1) st (.octet b) =
      bindE (packUnsigned 1 (b : Int)) (fun bytes => encStep fuel st (.wr bytes)) := rfl

theorem encStep_wr (fuel : Nat) (st : Codec) (s : List Nat) :
    encStep (fuel + 1) st (.wr s) =
      bindE (encStep fuel st .flush) (fun st1 =>
        .ok { st1 with output := st1.output ++ s, nwrote := st1.nwrote + s.length }) := rfl

theorem flush_empty {st : Codec} (h : st.outgoing_bits = []) (fuel : Nat) :
    encStep (fuel + 1) st .flush = .ok st := by
  rw [encStep_flush, h]
  simp

theorem wr_empty {st : Codec} (h : st.outgoing_bits = []) (fuel : Nat) (s : List Nat) :
    encStep (fuel + 2) st (.wr s) = .ok (appendOut st s) := by
  show encStep ((fuel + 1) + 1) st (.wr s) = _
  rw [encStep_wr, flush_empty h]
  simp only [bindE_ok]
  rfl

theorem packUnsigned_byte {b : Nat} (hb : b < 256) :
    packUnsigned 1 (b : Int) = .ok [b] := by
  have h1 : (0 : Int) ≤ (b : Int) := by positivity
  have h2 : (b : Int) < 2 ^ (8 * 1) := by norm_num; omega
  unfold packUnsigned
  rw [if_pos (⟨h1, h2⟩ : (0 : Int) ≤ (b : Int) ∧ (b : Int) < 2 ^ (8 * 1))]
  simp [beBytes, Nat.mod_eq_of_lt hb]

theorem octs_empty :
    ∀ (bs : List Nat) (fuel : Nat) (st : Codec), st.outgoing_bits = [] →
      (∀ b ∈ bs, b < 256) →
      encStep (fuel + bs.length + 3) st (.octs bs) = .ok (appendOut st bs) := by
  intro bs
  induction bs with
  | nil =>
    intro fuel st h hb
    have h1 : appendOut st [] = st := by simp [appendOut]
    rw [h1]
    rfl
  | cons b bs ih =>
    intro fuel st h hb
    have hfe : fuel + (b :: bs).length + 3 = (fuel + bs.length + 3) + 1 := by
      simp; omega
    rw [hfe, encStep_octs_cons]
    have hb0 : b < 256 := hb b (by simp)
    have henc : encStep (fuel + bs.length + 3) st (.octet b) = .ok (appendOut st [b]) := by
      show encStep ((fuel + bs.length + 2) + 1) st (.octet b) = _
      rw [encStep_octet, packUnsigned_byte hb0]
      simp only [bindE_ok]
      exact wr_empty h (fuel + bs.length) [b]
    rw [henc]
    simp only [bindE_ok]
    have h1 : (appendOut st [b]).outgoing_bits = [] := by rw [appendOut_outgoing, h]
    rw [ih fuel (appendOut st [b]) h1 (fun x hx => hb x (by simp [hx]))]
    rw [appendOut_appendOut]
    rfl

theorem flush_spec (fuel : Nat) (st : Codec) :
    encStep (fuel + st.outgoing_bits.length + 5) st .flush =
      .ok { st with outgoing_bits := [],
                    output := st.output ++ packBits st.outgoing_bits,
                    nwrote := st.nwrote + (packBits st.outgoing_bits).length } := by
  obtain ⟨inp, outp, nr, nw, ib, ob⟩ := st
  cases hob : ob with
  | nil =>
    subst hob
    show encStep ((fuel + 4) + 1) _ .flush = _
    rw [encStep_flush]
    simp [packBits]
  | cons b bs =>
    subst hob
    show encStep ((fuel + (b :: bs).length + 4) + 1) _ .flush = _
    rw [encStep_flush]
    rw [if_pos (by simp)]
    have hk : (packBits (b :: bs)).length ≤ (b :: bs).length := by
      rw [packBits_length]
      simp
      omega
    have harith : fuel + (b :: bs).length + 4 =
        (fuel + ((b :: bs).length - (packBits (b :: bs)).length) + 1) +
          (packBits (b :: bs)).length + 3 := by
      omega
    rw [harith,
      octs_empty (packBits (b :: bs)) _ _ rfl (packBits_all_lt (b :: bs))]
    rfl

theorem Codec.flushbits_eq (st : Codec) :
    st.flushbits =
      .ok { st with outgoing_bits := [],
                    output := st.output ++ packBits st.outgoing_bits,
                    nwrote := st.nwrote + (packBits st.outgoing_bits).length } := by
  show encStep (st.outgoing_bits.length + 8) st .flush = _
  rw [show st.outgoing_bits.length + 8 = 3 + st.outgoing_bits.length + 5 by omega]
  exact flush_spec 3 st

theorem Codec.write_eq (st : Codec) (s : List Nat) :
    st.write s =
      .ok { st with outgoing_bits := [],
                    output := st.output ++ packBits st.outgoing_bits ++ s,
                    nwrote := st.nwrote + (packBits st.outgoing_bits).length + s.length } := by
  show encStep (st.outgoing_bits.length + 9) st (.wr s) = _
  rw [show st.outgoing_bits.length + 9 = (st.outgoing_bits.length + 8) + 1 by omega,
    encStep_wr]
  rw [show st.outgoing_bits.length + 8 = 3 + st.outgoing_bits.length + 5 by omega,
    flush_spec 3 st]
  simp only [bindE_ok]

theorem write_nobits {st : Codec} (h : st.outgoing_bits = []) (s : List Nat) :
    st.write s = .ok (appendOut st s) := by
  obtain ⟨inp, outp, nr, nw, ib, ob⟩ := st
  simp only at h
  subst h
  rw [Codec.write_eq]
  simp [packBits, appendOut]

/-! ### Unfolding equations for the fueled decoders -/

theorem field_valueF_succ (fuel : Nat) (st : Codec) :
    field_valueF (fuel + 1) st =
      bind2 (st.read 1) (fun t st1 => dispatchF fuel t st1) := rfl

theorem dispatchF_succ (fuel : Nat) (t : List Nat) (st1 : Codec) :
    dispatchF (fuel + 1) t st1 =
      (if t = [116] then mapV .bool st1.decode_boolean
      else if t = [98] then mapV .int st1.decode_short_short_int
      else if t = [66] then mapV (fun n : Nat => .int n) st1.decode_short_short_uint
      else if t = [85] then mapV .int st1.decode_short_int
      else if t = [117] then mapV (fun n : Nat => .int n) st1.decode_short_uint
      else if t = [73] then mapV .int st1.decode_long_int
      else if t = [105] then mapV (fun n : Nat => .int n) st1.decode_long_uint
      else if t = [76] then mapV .int st1.decode_long_long_int
      else if t = [108] then mapV (fun n : Nat => .int n) st1.decode_long_long_uint
      else if t = [102] then mapV .float32 st1.decode_float
      else if t = [100] then mapV .float64 st1.decode_double
      else if t = [68] then mapV (fun p => .decimal p.1 p.2) st1.decode_decimal_value
      else if t = [115] then mapV .str st1.decode_short_string
      else if t = [83] then mapV .str st1.decode_long_string
      else if t = [65] then mapV .array (decode_field_arrayF fuel st1)
      else if t = [84] then mapV (fun n : Nat => .int n) st1.decode_timestamp
      else if t = [70] then mapV .table (decode_field_tableF fuel st1)
      else if t = [86] then mapV (fun _ => .void) st1.decode_none
      else .error (.unknownType t)) := rfl

theorem dispatchF_S (fuel : Nat) (st : Codec) :
    dispatchF (fuel + 1) [83] st = mapV .str st.decode_long_string := rfl

theorem dispatchF_I (fuel : Nat) (st : Codec) :
    dispatchF (fuel + 1) [73] st = mapV .int st.decode_long_int := rfl

theorem decode_field_arrayF_succ (fuel : Nat) (st : Codec) :
    decode_field_arrayF (fuel + 1) st =
      bind2 st.decode_long_int (fun size st1 =>
        arrayLoopF fuel st1 st1.nread size []) := rfl

theorem arrayLoopF_succ (fuel : Nat) (st : Codec) (start : Nat) (size : Int)
    (acc : List FieldValue) :
    arrayLoopF (fuel + 1) st start size acc =
      if (st.nread : Int) - start < size then
        bind2 (field_valueF fuel st) (fun v st1 =>
          arrayLoopF fuel st1 start size (acc ++ [v]))
      else
        if (st.nread : Int) - start ≠ size then
          .error (.sizeMismatch ((st.nread : Int) - start) size)
        else .ok (acc, st) := rfl

theorem decode_field_tableF_succ (fuel : Nat) (st : Codec) :
    decode_field_tableF (fuel + 1) st =
      bind2 st.decode_long_uint (fun size st1 =>
        tableLoopF fuel st1 st1.nread size []) := rfl

theorem tableLoopF_succ (fuel : Nat) (st : Codec) (start size : Nat)
    (acc : List (List Nat × FieldValue)) :
    tableLoopF (fuel + 1) st start size acc =
      if (st.nread : Int) - start < (size : Int) then
        bind2 st.decode_short_string (fun key st1 =>
          bind2 (field_valueF fuel st1) (fun v st2 =>
            tableLoopF fuel st2 start size (dictSet acc key v)))
      else .ok (acc, st) := rfl

/-! ### Encode-side lemmas -/

theorem packW_ok {st : Codec} (h : st.outgoing_bits = []) (bytes : List Nat) :
    st.packW (.ok bytes) = .ok (appendOut st bytes) := by
  unfold Codec.packW
  rw [bindE_ok]
  exact write_nobits h bytes

theorem packUnsigned_ok {w : Nat} {v : Int} (h1 : 0 ≤ v) (h2 : v < 2 ^ (8 * w)) :
    packUnsigned w v = .ok (beBytes w v.toNat) := by
  unfold packUnsigned
  rw [if_pos ⟨h1, h2⟩]

theorem packUnsigned_err {w : Nat} {v : Int} (hv : ¬(0 ≤ v ∧ v < 2 ^ (8 * w))) :
    packUnsigned w v = .error .structFail := by
  unfold packUnsigned
  rw [if_neg hv]

theorem beBytes_one_of_lt {n : Nat} (h : n < 256) : beBytes 1 n = [n] := by
  simp [beBytes, Nat.mod_eq_of_lt h]

theorem encode_short_short_uint_nat {st : Codec} (h : st.outgoing_bits = [])
    {n : Nat} (hn : n ≤ 255) :
    st.encode_short_short_uint (n : Int) = .ok (appendOut st [n]) := by
  unfold Codec.encode_short_short_uint
  rw [packUnsigned_byte (by omega), packW_ok h]

theorem encode_long_uint_nat {st : Codec} (h : st.outgoing_bits = [])
    {n : Nat} (hn : n < 2 ^ 32) :
    st.encode_long_uint (n : Int) = .ok (appendOut st (beBytes 4 n)) := by
  unfold Codec.encode_long_uint
  rw [packUnsigned_ok (by positivity) (by norm_num; omega), packW_ok h]
  simp

theorem encode_shortstr_ok {st : Codec} (h : st.outgoing_bits = [])
    {k : List Nat} (hk : k.length ≤ 255) :
    st.encode_shortstr k = .ok (appendOut st (k.length :: k)) := by
  unfold Codec.encode_shortstr Codec.encode_short_string
  rw [encode_short_short_uint_nat h hk]
  rw [bindE_ok]
  rw [write_nobits (by rw [appendOut_outgoing, h]) k, appendOut_appendOut]
  rfl

theorem encode_longstr_ok {st : Codec} (h : st.outgoing_bits = [])
    {s : List Nat} (hs : s.length < 2 ^ 32) :
    st.encode_longstr s = .ok (appendOut st (beBytes 4 s.length ++ s)) := by
  unfold Codec.encode_longstr Codec.enc_str4
  rw [packUnsigned_ok (by positivity) (by norm_num; omega), packW_ok h]
  rw [bindE_ok]
  rw [show ((s.length : Int)).toNat = s.length by simp]
  rw [write_nobits (by rw [appendOut_outgoing, h]) s, appendOut_appendOut]

theorem encodeTableValue_ok {st : Codec} (h : st.outgoing_bits = [])
    {v : PyVal} (hv : valEnc v) :
    encodeTableValue st v = .ok (appendOut st (tagBytes v)) := by
  cases v with
  | str s =>
    show bindE (st.write [83]) (fun st1 => st1.encode_longstr s) = _
    rw [write_nobits h [83]]
    rw [bindE_ok]
    rw [encode_longstr_ok (by rw [appendOut_outgoing, h]) hv, appendOut_appendOut]
    rfl
  | int n =>
    show bindE (st.write [73]) (fun st1 => st1.encode_long n) = _
    obtain ⟨h1, h2⟩ := hv
    rw [write_nobits h [73]]
    rw [bindE_ok]
    show (appendOut st [73]).encode_long_uint n = _
    have h3 := @encode_long_uint_nat (appendOut st [73])
      (by rw [appendOut_outgoing, h]) n.toNat (by omega)
    rw [show ((n.toNat : Nat) : Int) = n by omega] at h3
    rw [h3, appendOut_appendOut]
    rfl

theorem encodeTableValue_int_err {st : Codec} (h : st.outgoing_bits = [])
    {n : Int} (hn : ¬(0 ≤ n ∧ n < 2 ^ 32)) :
    encodeTableValue st (.int n) = .error .structFail := by
  show bindE (st.write [73]) (fun st1 => st1.encode_long n) = _
  rw [write_nobits h [73]]
  rw [bindE_ok]
  show (appendOut st [73]).packW (packUnsigned 4 n) = _
  rw [packUnsigned_err (by norm_num; omega)]
  rfl

theorem tableBody_nil (st : Codec) : tableBody st [] = .ok st := rfl

theorem tableBody_cons (st : Codec) (k : List Nat) (v : PyVal)
    (t : List (List Nat × PyVal)) :
    tableBody st ((k, v) :: t) =
      bindE (st.encode_shortstr k) (fun st1 =>
        bindE (encodeTableValue st1 v) (fun st2 => tableBody st2 t)) := rfl

theorem tableBody_ok :
    ∀ (tbl : List (List Nat × PyVal)) (st : Codec), st.outgoing_bits = [] →
      (∀ kv ∈ tbl, entryEnc kv) →
      tableBody st tbl = .ok (appendOut st (bodyBytes tbl)) := by
  intro tbl
  induction tbl with
  | nil =>
    intro st h _
    rw [tableBody_nil]
    have : appendOut st (bodyBytes []) = st := by simp [appendOut, bodyBytes]
    rw [this]
  | cons kv t ih =>
    intro st h htbl
    obtain ⟨k, v⟩ := kv
    obtain ⟨hk, hv⟩ := htbl (k, v) (by simp)
    rw [tableBody_cons, encode_shortstr_ok h hk]
    rw [bindE_ok]
    rw [encodeTableValue_ok (by rw [appendOut_outgoing, h]) hv]
    rw [bindE_ok]
    rw [appendOut_appendOut]
    rw [ih _ (by rw [appendOut_outgoing, h]) (fun kv hkv => htbl kv (by simp [hkv]))]
    rw [appendOut_appendOut]
    rfl

theorem encode_field_table_ok {st : Codec} (h : st.outgoing_bits = [])
    {tbl : List (List Nat × PyVal)} (htbl : ∀ kv ∈ tbl, entryEnc kv)
    (hlen : (bodyBytes tbl).length < 2 ^ 32) :
    st.encode_field_table tbl =
      .ok (appendOut st (beBytes 4 (bodyBytes tbl).length ++ bodyBytes tbl)) := by
  unfold Codec.encode_field_table
  rw [tableBody_ok tbl (Codec.init []) rfl htbl]
  rw [bindE_ok]
  have hout : (appendOut (Codec.init []) (bodyBytes tbl)).output = bodyBytes tbl := rfl
  rw [hout, encode_long_uint_nat h hlen]
  rw [bindE_ok]
  rw [write_nobits (by rw [appendOut_outgoing, h]) (bodyBytes tbl), appendOut_appendOut]

/-! ### Decode-side lemmas -/

theorem read_one {st : Codec} {b : Nat} {rest : List Nat} (h : st.input = b :: rest) :
    st.read 1 = .ok ([b], { st with input := rest, nread := st.nread + 1 }) := by
  have h2 : st.input = [b] ++ rest := by simpa using h
  simpa using read_exact h2

theorem decode_short_string_exact {st : Codec} {k rest : List Nat}
    (h : st.input = (k.length :: k) ++ rest) :
    st.decode_short_string =
      .ok (k, { st with input := rest, nread := st.nread + 1 + k.length }) := by
  unfold Codec.decode_short_string Codec.decode_short_short_uint
  have h2 : st.input = [k.length] ++ (k ++ rest) := by simpa using h
  rw [@unpackUnsigned_exact st [k.length] (k ++ rest) 1 h2 (by simp)]
  rw [bind2_ok, fromBE_singleton]
  rw [@read_exact { st with input := k ++ rest, nread := st.nread + 1 } k rest rfl]

theorem decode_long_uint_exact {st : Codec} {m : Nat} {rest : List Nat}
    (hm : m < 2 ^ 32) (h : st.input = beBytes 4 m ++ rest) :
    st.decode_long_uint =
      .ok (m, { st with input := rest, nread := st.nread + 4 }) := by
  unfold Codec.decode_long_uint
  rw [unpackUnsigned_exact h (beBytes_length 4 m)]
  rw [fromBE_beBytes_of_lt (by norm_num; omega)]

theorem decode_long_int_exact {st : Codec} {m : Nat} {rest : List Nat}
    (hm : m < 2 ^ 32) (h : st.input = beBytes 4 m ++ rest) :
    st.decode_long_int =
      .ok ((if (m : Int) < 2 ^ 31 then (m : Int) else (m : Int) - 2 ^ 32),
           { st with input := rest, nread := st.nread + 4 }) := by
  unfold Codec.decode_long_int
  rw [unpackSigned_exact h (beBytes_length 4 m)]
  rw [fromBE_beBytes_of_lt (by norm_num; omega)]

theorem decode_long_string_exact {st : Codec} {s rest : List Nat}
    (hs : s.length < 2 ^ 32) (h : st.input = beBytes 4 s.length ++ (s ++ rest)) :
    st.decode_long_string =
      .ok (s, { st with input := rest, nread := st.nread + 4 + s.length }) := by
  unfold Codec.decode_long_string
  rw [decode_long_uint_exact hs h]
  rw [bind2_ok]
  rw [@read_exact { st with input := s ++ rest, nread := st.nread + 4 } s rest rfl]

theorem field_value_S {fuel : Nat} {st : Codec} {s rest : List Nat}
    (hs : s.length < 2 ^ 32)
    (h : st.input = (83 :: (beBytes 4 s.length ++ s)) ++ rest) :
    field_valueF (fuel + 2) st =
      .ok (.str s, { st with input := rest, nread := st.nread + 1 + 4 + s.length }) := by
  show field_valueF ((fuel + 1) + 1) st = _
  rw [field_valueF_succ]
  rw [@read_one st 83 (beBytes 4 s.length ++ (s ++ rest)) (by rw [h]; simp)]
  rw [bind2_ok]
  rw [dispatchF_S]
  unfold mapV
  rw [@decode_long_string_exact { st with
        input := beBytes 4 s.length ++ (s ++ rest), nread := st.nread + 1 } s rest hs rfl]
  rw [bind2_ok]

theorem field_value_I {fuel : Nat} {st : Codec} {m : Nat} {rest : List Nat}
    (hm : m < 2 ^ 32) (h : st.input = (73 :: beBytes 4 m) ++ rest) :
    field_valueF (fuel + 2) st =
      .ok (.int (if (m : Int) < 2 ^ 31 then (m : Int) else (m : Int) - 2 ^ 32),
           { st with input := rest, nread := st.nread + 1 + 4 }) := by
  show field_valueF ((fuel + 1) + 1) st = _
  rw [field_valueF_succ]
  rw [@read_one st 73 (beBytes 4 m ++ rest) (by rw [h]; simp)]
  rw [bind2_ok]
  rw [dispatchF_I]
  unfold mapV
  rw [@decode_long_int_exact { st with
        input := beBytes 4 m ++ rest, nread := st.nread + 1 } m rest hm rfl]
  rw [bind2_ok]

/-! ### Table round-trip lemmas -/

theorem bodyBytes_nil : bodyBytes [] = [] := rfl

theorem bodyBytes_cons (kv : List Nat × PyVal) (t : List (List Nat × PyVal)) :
    bodyBytes (kv :: t) = entryBytes kv ++ bodyBytes t := rfl

theorem tagBytes_length_pos (v : PyVal) : 0 < (tagBytes v).length := by
  cases v <;> simp [tagBytes]

theorem entryBytes_length (k : List Nat) (v : PyVal) :
    (entryBytes (k, v)).length = 1 + k.length + (tagBytes v).length := by
  simp [entryBytes]
  omega

theorem tagBytes_str_length (s : List Nat) :
    (tagBytes (PyVal.str s)).length = 5 + s.length := by
  simp [tagBytes, beBytes_length]
  omega

theorem tagBytes_int_length (n : Int) :
    (tagBytes (PyVal.int n)).length = 5 := by
  simp [tagBytes, beBytes_length]

theorem tableLoop_ok :
    ∀ (entries : List (List Nat × PyVal)) (fuel : Nat) (st : Codec) (start : Nat)
      (size : Nat) (acc : List (List Nat × FieldValue)) (tail : List Nat),
      st.input = bodyBytes entries ++ tail →
      start ≤ st.nread →
      (size : Int) = (st.nread : Int) - start + (bodyBytes entries).length →
      (∀ kv ∈ entries, entryEnc kv) →
      tableLoopF (fuel + 2 * entries.length + 1) st start size acc =
        .ok (entries.foldl (fun a kv => dictSet a kv.1 (decodedVal kv.2)) acc,
             { st with input := tail, nread := st.nread + (bodyBytes entries).length }) := by
  intro entries
  induction entries with
  | nil =>
    intro fuel st start size acc tail h hstart hsize _
    rw [bodyBytes_nil] at h hsize
    show tableLoopF ((fuel + 0) + 1) st start size acc = _
    rw [tableLoopF_succ]
    rw [if_neg (by simp at hsize; omega)]
    obtain ⟨i, o, nr, nw, ib, ob⟩ := st
    simp only [List.nil_append] at h
    subst h
    simp [bodyBytes_nil]
  | cons kv t ih =>
    intro fuel st start size acc tail h hstart hsize henc
    obtain ⟨k, v⟩ := kv
    rw [bodyBytes_cons] at h hsize
    obtain ⟨hk, hv⟩ := henc (k, v) (by simp)
    have hfe : fuel + 2 * ((k, v) :: t).length + 1 = (fuel + 2 * t.length + 2) + 1 := by
      simp [List.length_cons]; omega
    rw [hfe, tableLoopF_succ]
    rw [if_pos (by
      have h1 : (entryBytes (k, v) ++ bodyBytes t).length =
          (entryBytes (k, v)).length + (bodyBytes t).length := by
        rw [List.length_append]
      have h2 := entryBytes_length k v
      have h3 := tagBytes_length_pos v
      omega)]
    have hinput : st.input = (k.length :: k) ++ (tagBytes v ++ (bodyBytes t ++ tail)) := by
      rw [h]
      simp [entryBytes]
    rw [decode_short_string_exact hinput]
    rw [bind2_ok]
    cases v with
    | str s =>
      have hs : s.length < 2 ^ 32 := hv
      have hfv : field_valueF (fuel + 2 * t.length + 2)
          { st with input := tagBytes (PyVal.str s) ++ (bodyBytes t ++ tail),
                    nread := st.nread + 1 + k.length } =
          .ok (.str s, { st with
                         input := bodyBytes t ++ tail,
                         nread := st.nread + 1 + k.length + 1 + 4 + s.length }) := by
        show field_valueF ((fuel + 2 * t.length) + 2) _ = _
        exact field_value_S hs (by simp [tagBytes])
      rw [hfv, bind2_ok]
      have hfe2 : fuel + 2 * t.length + 2 = (fuel + 1) + 2 * t.length + 1 := by omega
      rw [hfe2]
      rw [ih (fuel + 1) _ start size (dictSet acc k (FieldValue.str s)) tail rfl
        (by dsimp only; omega)
        (by
          dsimp only
          have h1 : (entryBytes (k, PyVal.str s) ++ bodyBytes t).length =
              (entryBytes (k, PyVal.str s)).length + (bodyBytes t).length := by
            rw [List.length_append]
          have h2 := entryBytes_length k (PyVal.str s)
          have h3 := tagBytes_str_length s
          omega)
        (fun kv hkv => henc kv (by simp [hkv]))]
      dsimp only
      have hn : st.nread + 1 + k.length + 1 + 4 + s.length + (bodyBytes t).length =
          st.nread + (bodyBytes ((k, PyVal.str s) :: t)).length := by
        rw [bodyBytes_cons, List.length_append, entryBytes_length, tagBytes_str_length]
        omega
      rw [hn]
      rfl
    | int n =>
      obtain ⟨hn0, hn1⟩ := hv
      have hm : n.toNat < 2 ^ 32 := by omega
      have hfv : field_valueF (fuel + 2 * t.length + 2)
          { st with input := tagBytes (PyVal.int n) ++ (bodyBytes t ++ tail),
                    nread := st.nread + 1 + k.length } =
          .ok (.int (if (n.toNat : Int) < 2 ^ 31 then (n.toNat : Int)
                     else (n.toNat : Int) - 2 ^ 32),
               { st with
                 input := bodyBytes t ++ tail,
                 nread := st.nread + 1 + k.length + 1 + 4 }) := by
        show field_valueF ((fuel + 2 * t.length) + 2) _ = _
        exact field_value_I hm (by simp [tagBytes])
      rw [hfv, bind2_ok]
      have hfe2 : fuel + 2 * t.length + 2 = (fuel + 1) + 2 * t.length + 1 := by omega
      rw [hfe2]
      rw [ih (fuel + 1) _ start size
        (dictSet acc k (.int (if (n.toNat : Int) < 2 ^ 31 then (n.toNat : Int)
                              else (n.toNat : Int) - 2 ^ 32))) tail rfl
        (by dsimp only; omega)
        (by
          dsimp only
          have h1 : (entryBytes (k, PyVal.int n) ++ bodyBytes t).length =
              (entryBytes (k, PyVal.int n)).length + (bodyBytes t).length := by
            rw [List.length_append]
          have h2 := entryBytes_length k (PyVal.int n)
          have h3 := tagBytes_int_length n
          omega)
        (fun kv hkv => henc kv (by simp [hkv]))]
      dsimp only
      have hn : st.nread + 1 + k.length + 1 + 4 + (bodyBytes t).length =
          st.nread + (bodyBytes ((k, PyVal.int n) :: t)).length := by
        rw [bodyBytes_cons, List.length_append, entryBytes_length, tagBytes_int_length]
        omega
      rw [hn]
      rfl

theorem decode_field_table_exact {fuel : Nat} {st : Codec}
    {tbl : List (List Nat × PyVal)} {tail : List Nat}
    (henc : ∀ kv ∈ tbl, entryEnc kv) (hlen : (bodyBytes tbl).length < 2 ^ 32)
    (h : st.input = beBytes 4 (bodyBytes tbl).length ++ (bodyBytes tbl ++ tail)) :
    decode_field_tableF (fuel + 2 * tbl.length + 2) st =
      .ok (tbl.foldl (fun a kv => dictSet a kv.1 (decodedVal kv.2)) [],
           { st with input := tail, nread := st.nread + 4 + (bodyBytes tbl).length }) := by
  show decode_field_tableF ((fuel + 2 * tbl.length + 1) + 1) st = _
  rw [decode_field_tableF_succ]
  rw [decode_long_uint_exact hlen h]
  rw [bind2_ok]
  rw [tableLoop_ok tbl fuel _ _ _ [] tail rfl (Nat.le_refl _) (by omega) henc]

theorem dictSet_nil (k : List Nat) (v : FieldValue) : dictSet [] k v = [(k, v)] := rfl

theorem dictSet_cons (k' : List Nat) (v' : FieldValue) (t : List (List Nat × FieldValue))
    (k : List Nat) (v : FieldValue) :
    dictSet ((k', v') :: t) k v =
      if k' = k then (k, v) :: t else (k', v') :: dictSet t k v := rfl

theorem dictSet_fresh :
    ∀ (l : List (List Nat × FieldValue)) (k : List Nat) (v : FieldValue),
      (∀ p ∈ l, p.1 ≠ k) → dictSet l k v = l ++ [(k, v)] := by
  intro l k v
  induction l with
  | nil => intro _; rfl
  | cons p t ih =>
    intro h
    obtain ⟨k', v'⟩ := p
    rw [dictSet_cons, if_neg (h (k', v') (by simp))]
    rw [ih (fun p hp => h p (by simp [hp]))]
    rfl

theorem foldl_dictSet_fresh :
    ∀ (entries : List (List Nat × PyVal)) (acc : List (List Nat × FieldValue)),
      (entries.map Prod.fst).Nodup →
      (∀ kv ∈ entries, ∀ p ∈ acc, p.1 ≠ kv.1) →
      entries.foldl (fun a kv => dictSet a kv.1 (decodedVal kv.2)) acc =
        acc ++ entries.map (fun kv => (kv.1, decodedVal kv.2)) := by
  intro entries
  induction entries with
  | nil => intro acc _ _; simp
  | cons kv t ih =>
    intro acc hnd hfr
    obtain ⟨k, v⟩ := kv
    rw [List.foldl_cons]
    have hstep : dictSet acc k (decodedVal v) = acc ++ [(k, decodedVal v)] :=
      dictSet_fresh acc k _ (fun p hp => hfr (k, v) (by simp) p hp)
    dsimp only
    rw [hstep]
    have hnd' : (t.map Prod.fst).Nodup := by
      rw [List.map_cons, List.nodup_cons] at hnd
      exact hnd.2
    have hknotin : k ∉ t.map Prod.fst := by
      rw [List.map_cons, List.nodup_cons] at hnd
      exact hnd.1
    rw [ih (acc ++ [(k, decodedVal v)]) hnd' ?fresh]
    · simp
    intro kv' hkv' p hp
    rcases List.mem_append.mp hp with hp | hp
    · exact hfr kv' (by simp [hkv']) p hp
    · have hp2 : p = (k, decodedVal v) := by simpa using hp
      subst hp2
      intro hcontra
      have hk2 : k = kv'.1 := hcontra
      exact hknotin (by
        rw [hk2]
        exact List.mem_map_of_mem Prod.fst hkv')

/-! ### Array-loop lemmas -/

theorem arrayLoopF_zero (st : Codec) (start : Nat) (size : Int) (acc : List FieldValue) :
    arrayLoopF 0 st start size acc = .error .noFuel := rfl

theorem decode_field_arrayF_zero (st : Codec) :
    decode_field_arrayF 0 st = .error .noFuel := rfl

theorem arrayLoop_exact :
    ∀ (fuel : Nat) (st : Codec) (start : Nat) (size : Int) (acc vs : List FieldValue)
      (st' : Codec),
      arrayLoopF fuel st start size acc = .ok (vs, st') →
      (st'.nread : Int) - start = size := by
  intro fuel
  induction fuel with
  | zero =>
    intro st start size acc vs st' h
    rw [arrayLoopF_zero] at h
    exact Except.noConfusion h
  | succ fuel ih =>
    intro st start size acc vs st' h
    rw [arrayLoopF_succ] at h
    by_cases hc : (st.nread : Int) - start < size
    · rw [if_pos hc] at h
      cases hfv : field_valueF fuel st with
      | error e =>
        rw [hfv, bind2_err] at h
        exact Except.noConfusion h
      | ok p =>
        obtain ⟨v, st1⟩ := p
        rw [hfv, bind2_ok] at h
        exact ih st1 start size (acc ++ [v]) vs st' h
    · rw [if_neg hc] at h
      by_cases hne : (st.nread : Int) - start ≠ size
      · rw [if_pos hne] at h
        exact Except.noConfusion h
      · rw [if_neg hne] at h
        have h2 : (acc, st) = (vs, st') := Except.ok.inj h
        have h3 : st = st' := (Prod.mk.injEq _ _ _ _ ▸ h2).2
        push_neg at hne
        rw [← h3]
        exact hne

/-! ### Claims -/

/-- Claim C2: `decode_field_array` reads a four-byte signed size via
`decode_long_int` and loops until the consumed byte count reaches it; every
successful decode has consumed exactly the declared size past the size
field, and a payload whose declared size does not match the element
encodings (here: size 1 but a two-byte boolean element) fails with the
framing-mismatch error rather than returning. -/
theorem c2_array_framing :
    (∀ (fuel : Nat) (st : Codec) (vs : List FieldValue) (st' : Codec),
      decode_field_arrayF fuel st = .ok (vs, st') →
      ∃ (size : Int) (st1 : Codec), st.decode_long_int = .ok (size, st1) ∧
        (st'.nread : Int) = (st1.nread : Int) + size) ∧
    decode_field_arrayF 6 (Codec.init [0, 0, 0, 1, 116, 1]) =
      .error (.sizeMismatch 2 1) := by
  constructor
  · intro fuel st vs st' h
    cases fuel with
    | zero =>
      rw [decode_field_arrayF_zero] at h
      exact Except.noConfusion h
    | succ fuel =>
      rw [decode_field_arrayF_succ] at h
      cases hdl : st.decode_long_int with
      | error e =>
        rw [hdl, bind2_err] at h
        exact Except.noConfusion h
      | ok p =>
        obtain ⟨size, st1⟩ := p
        rw [hdl, bind2_ok] at h
        have := arrayLoop_exact fuel st1 st1.nread size [] vs st' h
        exact ⟨size, st1, rfl, by omega⟩
  · rfl

/-- Witness for C2: a well-framed array (size 2, one boolean element)
decodes successfully, and the consumed count equals the declared size. -/
theorem c2_witness :
    ∃ (size : Int) (st1 : Codec),
      (Codec.init [0, 0, 0, 2, 116, 1]).decode_long_int = .ok (size, st1) ∧
      (((⟨[], [], 6, 0, [], []⟩ : Codec).nread : Int)) = (st1.nread : Int) + size :=
  c2_array_framing.1 6 (Codec.init [0, 0, 0, 2, 116, 1]) [.bool true]
    ⟨[], [], 6, 0, [], []⟩ rfl

/-- Claim C6: `field_value` reads exactly one leading tag byte, and every
byte outside the eighteen recognized tags makes it fail with the
unknown-type error carrying the offending byte — no unknown tag is mapped
to a value. -/
theorem c6_unknown_tag (fuel : Nat) (st : Codec) (b : Nat) (rest : List Nat)
    (h : st.input = b :: rest)
    (hb : b ∉ [116, 98, 66, 85, 117, 73, 105, 76, 108, 102, 100, 68,
               115, 83, 65, 84, 70, 86]) :
    field_valueF (fuel + 2) st = .error (.unknownType [b]) := by
  show field_valueF ((fuel + 1) + 1) st = _
  rw [field_valueF_succ, read_one h, bind2_ok]
  rw [dispatchF_succ]
  simp only [List.mem_cons, List.not_mem_nil, or_false, not_or] at hb
  obtain ⟨g1, g2, g3, g4, g5, g6, g7, g8, g9, g10, g11, g12, g13, g14, g15,
    g16, g17, g18⟩ := hb
  rw [if_neg (by simp [g1]), if_neg (by simp [g2]), if_neg (by simp [g3]),
    if_neg (by simp [g4]), if_neg (by simp [g5]), if_neg (by simp [g6]),
    if_neg (by simp [g7]), if_neg (by simp [g8]), if_neg (by simp [g9]),
    if_neg (by simp [g10]), if_neg (by simp [g11]), if_neg (by simp [g12]),
    if_neg (by simp [g13]), if_neg (by simp [g14]), if_neg (by simp [g15]),
    if_neg (by simp [g16]), if_neg (by simp [g17]), if_neg (by simp [g18])]

/-- Witness for C6: the byte 90 (ASCII `Z`) is not a recognized tag and
produces the unknown-type error carrying it. -/
theorem c6_witness :
    field_valueF 2 (Codec.init [90, 0]) = .error (.unknownType [90]) :=
  c6_unknown_tag 0 (Codec.init [90, 0]) 90 [0] rfl (by decide)

/-- Claim C3 (code bug): `encode_long_string` reuses
`encode_short_short_uint`, the ONE-byte length writer, so encoding the
one-byte string `"a"` produces `[1, 97]` — while `decode_long_string`, its
counterpart, expects the four-byte unsigned prefix `[0, 0, 0, 1]` before
the payload. -/
theorem c3_long_string_length_prefix :
    Codec.encode_long_string (Codec.init []) [97] =
      .ok ⟨[], [1, 97], 0, 2, [], []⟩ ∧
    Codec.decode_long_string (Codec.init [0, 0, 0, 1, 97]) =
      .ok ([97], ⟨[], [], 5, 0, [], []⟩) :=
  ⟨rfl, rfl⟩

/-- Claim C8 (code bug): `decode_none` is `unpack("!x")` whose `calcsize`
is one, so after the tag byte `V` the decoder consumes ONE further byte —
it raises end-of-stream when the stream ends right after the tag, and
advances the read counter to 2 when a byte follows, where the claim (and
the AMQP wire format) require zero further payload bytes. -/
theorem c8_void_reads_pad_byte :
    field_valueF 2 (Codec.init [86]) = .error .eof ∧
    field_valueF 2 (Codec.init [86, 0]) =
      .ok (.void, ⟨[], [], 2, 0, [], []⟩) :=
  ⟨rfl, rfl⟩

/-- Claim C5, corrected: the original claim says a partial read (more than
zero but fewer than requested bytes) raises end-of-stream; in the code a
two-byte decode over a one-byte stream instead fails with `struct.error`,
a format error. -/
theorem c5_counterexample :
    Codec.decode_short_uint (Codec.init [7]) = .error .structFail ∧
    Err.structFail ≠ Err.eof :=
  ⟨rfl, by decide⟩

/-- Claim C5 (amended): `read` raises end-of-stream exactly when a
positive number of bytes is requested and zero bytes are available; a
zero-byte request returns empty and raises nothing; and a nonempty stream
shorter than a fixed-width field makes `unpack` fail with `struct.error`
(a format error), not end-of-stream. -/
theorem c5_read_eof_semantics :
    (∀ (st : Codec) (n : Nat), 0 < n → st.input = [] → st.read n = .error .eof) ∧
    (∀ st : Codec, st.read 0 = .ok ([], st)) ∧
    (∀ (st : Codec) (w : Nat), 0 < w → st.input ≠ [] → st.input.length < w →
      st.unpackUnsigned w = .error .structFail) := by
  refine ⟨?_, ?_, ?_⟩
  · intro st n hn h
    unfold Codec.read
    rw [if_pos ⟨hn, by simp [h]⟩]
  · intro st
    unfold Codec.read
    simp
  · intro st w hw hne hlen
    have htake : st.input.take w = st.input := List.take_of_length_le (by omega)
    unfold Codec.unpackUnsigned Codec.read
    rw [if_neg (by
      rw [htake]
      intro hcontra
      exact hne (List.eq_nil_of_length_eq_zero hcontra.2))]
    rw [bind2_ok, htake]
    rw [if_neg (by omega)]

/-- Witness for C5: an empty stream EOFs a three-byte read, a zero-byte
read succeeds on any stream, and a one-byte stream makes the two-byte
unpack fail with the format error. -/
theorem c5_witness :
    (Codec.init []).read 3 = .error .eof ∧
    (Codec.init [5]).read 0 = .ok ([], Codec.init [5]) ∧
    (Codec.init [7]).unpackUnsigned 2 = .error .structFail :=
  ⟨c5_read_eof_semantics.1 (Codec.init []) 3 (by decide) rfl,
   c5_read_eof_semantics.2.1 (Codec.init [5]),
   c5_read_eof_semantics.2.2 (Codec.init [7]) 2 (by decide) (by decide) (by decide)⟩

/-- Claim C9: `flushbits` deletes the queued bits before emitting any packed
octet, so the re-entrant `flushbits` reached through `encode_octet`'s
`write` sees an empty queue and terminates: flushing appends exactly the
packed octets of the queue once (nothing on an empty queue), and after any
`write` returns the outgoing queue is empty. -/
theorem c9_flushbits_order (st : Codec) (s : List Nat) :
    (st.outgoing_bits = [] → st.flushbits = .ok st) ∧
    st.flushbits = .ok { st with
                         outgoing_bits := [],
                         output := st.output ++ packBits st.outgoing_bits,
                         nwrote := st.nwrote + (packBits st.outgoing_bits).length } ∧
    (∀ st', st.write s = .ok st' → st'.outgoing_bits = []) := by
  refine ⟨?_, Codec.flushbits_eq st, ?_⟩
  · intro h
    rw [Codec.flushbits_eq st]
    obtain ⟨i, o, nr, nw, ib, ob⟩ := st
    simp only at h
    subst h
    simp [packBits]
  · intro st' h
    rw [Codec.write_eq st] at h
    have h2 := Except.ok.inj h
    rw [← h2]

/-- Witness for C9: with one queued bit, flushing materializes it as the
octet 1 and empties the queue; after a write the queue is empty. -/
theorem c9_witness :
    Codec.flushbits ⟨[], [], 0, 0, [], []⟩ = .ok ⟨[], [], 0, 0, [], []⟩ ∧
    Codec.flushbits ⟨[], [], 0, 0, [], [true]⟩ = .ok ⟨[], [1], 0, 1, [], []⟩ ∧
    (⟨[], [1, 7], 0, 2, [], []⟩ : Codec).outgoing_bits = [] :=
  ⟨(c9_flushbits_order ⟨[], [], 0, 0, [], []⟩ []).1 rfl,
   (c9_flushbits_order ⟨[], [], 0, 0, [], [true]⟩ [7]).2.1,
   (c9_flushbits_order ⟨[], [], 0, 0, [], [true]⟩ [7]).2.2 ⟨[], [1, 7], 0, 2, [], []⟩ rfl⟩

/-- Claim C7, corrected: the original claim (round-trip for EVERY table whose
values are strings or integers) fails at `{"k": 2 ^ 31}` — the value is
encoded through the unsigned four-byte packer but decoded through the signed
four-byte decoder, coming back as `-2 ^ 31`.  This theorem proves the claim
false at that concrete input. -/
theorem c7_counterexample :
    Codec.encode_field_table (Codec.init []) [([107], PyVal.int (2 ^ 31))] =
      .ok ⟨[], [0, 0, 0, 7, 1, 107, 73, 128, 0, 0, 0], 0, 11, [], []⟩ ∧
    decode_field_tableF 4 (Codec.init [0, 0, 0, 7, 1, 107, 73, 128, 0, 0, 0]) =
      .ok ([([107], FieldValue.int (-2147483648))], ⟨[], [], 11, 0, [], []⟩) ∧
    FieldValue.int (-2147483648) ≠ pyToField (PyVal.int (2 ^ 31)) := by
  refine ⟨rfl, rfl, ?_⟩
  intro hcontra
  have h2 : (-2147483648 : Int) = 2 ^ 31 := FieldValue.int.inj hcontra
  norm_num at h2

/-- Claim C7 (amended): for every field table whose keys are distinct and at
most 255 bytes, whose string values are shorter than `2 ^ 32` and whose
integer values lie in `[0, 2 ^ 31)` (rather than all integers: values in
`[2 ^ 31, 2 ^ 32)` come back shifted, larger or negative ones raise
`struct.error`), encoding with `encode_field_table` and then decoding with
`decode_field_table` reproduces the same key-to-value mapping; the empty
table and `{"one": 1}` are instances. -/
theorem c7_table_roundtrip (tbl : List (List Nat × PyVal))
    (hnd : (tbl.map Prod.fst).Nodup)
    (henc : ∀ kv ∈ tbl, entryEnc kv)
    (hint : ∀ (k : List Nat) (n : Int), (k, PyVal.int n) ∈ tbl → n < 2 ^ 31)
    (hlen : (bodyBytes tbl).length < 2 ^ 32) :
    ∃ stE stD, Codec.encode_field_table (Codec.init []) tbl = .ok stE ∧
      decode_field_tableF (2 * tbl.length + 2) (Codec.init stE.output) =
        .ok (tbl.map (fun kv => (kv.1, pyToField kv.2)), stD) := by
  have hdec := @decode_field_table_exact 0
    (Codec.init (appendOut (Codec.init [])
      (beBytes 4 (bodyBytes tbl).length ++ bodyBytes tbl)).output)
    _ [] henc hlen (by simp [Codec.init, appendOut])
  rw [show (0 + 2 * tbl.length + 2) = 2 * tbl.length + 2 by omega] at hdec
  rw [foldl_dictSet_fresh tbl [] hnd (by simp), List.nil_append] at hdec
  have hmap : tbl.map (fun kv => (kv.1, decodedVal kv.2)) =
      tbl.map (fun kv => (kv.1, pyToField kv.2)) := by
    apply List.map_congr_left
    intro kv hkv
    obtain ⟨k, v⟩ := kv
    cases v with
    | str s => rfl
    | int n =>
      obtain ⟨-, hn0, hn1⟩ := henc (k, PyVal.int n) hkv
      have hn2 : n < 2 ^ 31 := hint k n hkv
      show (k, FieldValue.int _) = (k, FieldValue.int n)
      rw [show (if (n.toNat : Int) < 2 ^ 31 then (n.toNat : Int)
                else (n.toNat : Int) - 2 ^ 32) = n by
        rw [if_pos (by omega)]; omega]
  rw [hmap] at hdec
  exact ⟨_, _, encode_field_table_ok rfl henc hlen, hdec⟩

/-- Witness for C7: the table `{"one": 1}` (key bytes `[111, 110, 101]`)
satisfies every hypothesis and round-trips. -/
theorem c7_witness :
    ∃ stE stD,
      Codec.encode_field_table (Codec.init []) [([111, 110, 101], PyVal.int 1)] = .ok stE ∧
      decode_field_tableF (2 * 1 + 2) (Codec.init stE.output) =
        .ok ([([111, 110, 101], FieldValue.int 1)], stD) :=
  c7_table_roundtrip [([111, 110, 101], PyVal.int 1)]
    (by simp)
    (by intro kv hkv; simp at hkv; subst hkv; exact ⟨by decide, by constructor <;> decide⟩)
    (by intro k n h; simp at h; omega)
    (by decide)

/-- Claim C10: `encode_field_table` writes every non-string value with tag
`I` through the UNSIGNED four-byte packer while tag `I` is decoded with the
SIGNED four-byte decoder, so values in `[2 ^ 31, 2 ^ 32)` come back as
`v - 2 ^ 32`, values in `[0, 2 ^ 31)` round-trip unchanged, and any other
integer makes the encode itself fail with `struct.error`. -/
theorem c10_int_signedness (k : List Nat) (v : Int) (hk : k.length ≤ 255) :
    (0 ≤ v → v < 2 ^ 31 →
      ∃ stE stD, Codec.encode_field_table (Codec.init []) [(k, .int v)] = .ok stE ∧
        decode_field_tableF 4 (Codec.init stE.output) =
          .ok ([(k, FieldValue.int v)], stD)) ∧
    (2 ^ 31 ≤ v → v < 2 ^ 32 →
      ∃ stE stD, Codec.encode_field_table (Codec.init []) [(k, .int v)] = .ok stE ∧
        decode_field_tableF 4 (Codec.init stE.output) =
          .ok ([(k, FieldValue.int (v - 2 ^ 32))], stD)) ∧
    ((v < 0 ∨ 2 ^ 32 ≤ v) →
      Codec.encode_field_table (Codec.init []) [(k, .int v)] = .error .structFail) := by
  have hbody : (bodyBytes [(k, PyVal.int v)]).length < 2 ^ 32 := by
    rw [bodyBytes_cons, bodyBytes_nil, List.length_append,
      entryBytes_length, tagBytes_int_length]
    simp
    omega
  refine ⟨?_, ?_, ?_⟩
  · intro h0 h1
    have henc : ∀ kv ∈ [(k, PyVal.int v)], entryEnc kv := by
      intro kv hkv; simp at hkv; subst hkv
      exact ⟨hk, h0, by omega⟩
    have hdec := @decode_field_table_exact 0
      (Codec.init (appendOut (Codec.init [])
        (beBytes 4 (bodyBytes [(k, PyVal.int v)]).length ++
          bodyBytes [(k, PyVal.int v)])).output)
      _ [] henc hbody (by simp [Codec.init, appendOut])
    rw [show (0 + 2 * ([(k, PyVal.int v)]).length + 2) = 4 by simp] at hdec
    rw [show ([(k, PyVal.int v)].foldl
        (fun a kv => dictSet a kv.1 (decodedVal kv.2)) []) =
        [(k, decodedVal (PyVal.int v))] from rfl] at hdec
    rw [show decodedVal (PyVal.int v) = FieldValue.int v by
      show FieldValue.int _ = _
      rw [show (if (v.toNat : Int) < 2 ^ 31 then (v.toNat : Int)
                else (v.toNat : Int) - 2 ^ 32) = v by
        rw [if_pos (by omega)]; omega]] at hdec
    exact ⟨_, _, encode_field_table_ok rfl henc hbody, hdec⟩
  · intro h0 h1
    have henc : ∀ kv ∈ [(k, PyVal.int v)], entryEnc kv := by
      intro kv hkv; simp at hkv; subst hkv
      exact ⟨hk, by omega, by omega⟩
    have hdec := @decode_field_table_exact 0
      (Codec.init (appendOut (Codec.init [])
        (beBytes 4 (bodyBytes [(k, PyVal.int v)]).length ++
          bodyBytes [(k, PyVal.int v)])).output)
      _ [] henc hbody (by simp [Codec.init, appendOut])
    rw [show (0 + 2 * ([(k, PyVal.int v)]).length + 2) = 4 by simp] at hdec
    rw [show ([(k, PyVal.int v)].foldl
        (fun a kv => dictSet a kv.1 (decodedVal kv.2)) []) =
        [(k, decodedVal (PyVal.int v))] from rfl] at hdec
    rw [show decodedVal (PyVal.int v) = FieldValue.int (v - 2 ^ 32) by
      show FieldValue.int _ = _
      rw [show (if (v.toNat : Int) < 2 ^ 31 then (v.toNat : Int)
                else (v.toNat : Int) - 2 ^ 32) = v - 2 ^ 32 by
        rw [if_neg (by omega)]; omega]] at hdec
    exact ⟨_, _, encode_field_table_ok rfl henc hbody, hdec⟩
  · intro hbad
    unfold Codec.encode_field_table
    rw [tableBody_cons, encode_shortstr_ok rfl hk, bindE_ok]
    rw [encodeTableValue_int_err (by rfl) (by omega)]
    rfl

/-- Witness for C10: with key `"k"` (byte 107), the value `2 ^ 31` decodes
back as `-2 ^ 31`, and the value `-1` cannot be encoded at all. -/
theorem c10_witness :
    (∃ stE stD,
      Codec.encode_field_table (Codec.init []) [([107], PyVal.int (2 ^ 31))] = .ok stE ∧
      decode_field_tableF 4 (Codec.init stE.output) =
        .ok ([([107], FieldValue.int ((2 : Int) ^ 31 - 2 ^ 32))], stD)) ∧
    Codec.encode_field_table (Codec.init []) [([107], PyVal.int (-1))] =
      .error .structFail :=
  ⟨(c10_int_signedness [107] (2 ^ 31) (by decide)).2.1 (by norm_num) (by norm_num),
   (c10_int_signedness [107] (-1) (by decide)).2.2 (Or.inl (by norm_num))⟩


/-! ### Decimal-value lemmas -/

theorem packSigned4_ok {v : Int} (h1 : -(2 : Int) ^ 31 ≤ v) (h2 : v < (2 : Int) ^ 31) :
    packSigned 4 v = .ok (beBytes 4 ((v.emod ((2 : Int) ^ (8 * 4))).toNat)) := by
  have hc : -(2 : Int) ^ (8 * 4 - 1) ≤ v ∧ v < (2 : Int) ^ (8 * 4 - 1) := by
    norm_num
    exact ⟨h1, h2⟩
  unfold packSigned
  rw [if_pos hc]

/-- Claim C4, corrected: the original claim says `encode_decimal_value`
writes exactly FIVE bytes (a one-byte scale then a four-byte mantissa), but
the code first emits the type byte `D` via `pack("!c", "D")`, so SIX bytes
leave the codec: encoding `Decimal("3.14")` (coefficient 314, exponent -2)
writes `[68, 2, 0, 0, 1, 58]`, of length 6, not 5. -/
theorem c4_counterexample :
    Codec.encode_decimal_value (Codec.init []) ⟨314, -2⟩ =
      .ok ⟨[], [68, 2, 0, 0, 1, 58], 0, 6, [], []⟩ ∧
    ([68, 2, 0, 0, 1, 58] : List Nat).length ≠ 5 :=
  ⟨rfl, by decide⟩

/-- Claim C4 (amended): `encode_decimal_value` normalizes its input and
writes exactly SIX bytes — the type byte `D` (68), then a one-byte unsigned
scale, then a four-byte signed (two's-complement) mantissa.  When the
normalized exponent is strictly negative the scale is `-exp` and the
mantissa is the coefficient; otherwise the scale is 0 and the mantissa is
the integer value `coeff * 10 ^ exp`.  The `struct.pack` range checks must
hold (scale below 256, mantissa within `[-2^31, 2^31)`), and any bits
queued by `encode_bit` must have been flushed. -/
theorem c4_decimal_encoding (st : Codec) (d : PyDec) (hq : st.outgoing_bits = []) :
    (d.normalize.exp < 0 →
      (-d.normalize.exp).toNat < 256 →
      -(2 : Int) ^ 31 ≤ d.normalize.coeff →
      d.normalize.coeff < (2 : Int) ^ 31 →
      st.encode_decimal_value d =
        .ok (appendOut st (68 :: (-d.normalize.exp).toNat ::
          beBytes 4 ((d.normalize.coeff.emod ((2 : Int) ^ (8 * 4))).toNat)))) ∧
    (0 ≤ d.normalize.exp →
      -(2 : Int) ^ 31 ≤ d.normalize.coeff * 10 ^ d.normalize.exp.toNat →
      d.normalize.coeff * 10 ^ d.normalize.exp.toNat < (2 : Int) ^ 31 →
      st.encode_decimal_value d =
        .ok (appendOut st (68 :: 0 ::
          beBytes 4 (((d.normalize.coeff * 10 ^ d.normalize.exp.toNat).emod
            ((2 : Int) ^ (8 * 4))).toNat)))) := by
  constructor
  · intro he h256 hlo hhi
    unfold Codec.encode_decimal_value
    rw [if_pos he]
    rw [write_nobits hq [68], bindE_ok]
    unfold Codec.packW
    rw [packUnsigned_byte h256, bindE_ok,
      write_nobits (show (appendOut st [68]).outgoing_bits = [] from hq), bindE_ok]
    rw [packSigned4_ok hlo hhi, bindE_ok,
      write_nobits (show (appendOut (appendOut st [68])
        [(-d.normalize.exp).toNat]).outgoing_bits = [] from hq)]
    rw [appendOut_appendOut, appendOut_appendOut]
    rfl
  · intro he hlo hhi
    unfold Codec.encode_decimal_value
    rw [if_neg (not_lt.mpr he)]
    rw [write_nobits hq [68], bindE_ok]
    unfold Codec.packW
    have h0 : packUnsigned 1 (0 : Int) = .ok [0] := rfl
    rw [h0, bindE_ok,
      write_nobits (show (appendOut st [68]).outgoing_bits = [] from hq), bindE_ok]
    rw [packSigned4_ok hlo hhi, bindE_ok,
      write_nobits (show (appendOut (appendOut st [68]) [0]).outgoing_bits = [] from hq)]
    rw [appendOut_appendOut, appendOut_appendOut]
    rfl

theorem c4_witness :
    Codec.encode_decimal_value (Codec.init []) ⟨314, -2⟩ =
      .ok ⟨[], [68, 2, 0, 0, 1, 58], 0, 6, [], []⟩ :=
  (c4_decimal_encoding (Codec.init []) ⟨314, -2⟩ rfl).1
    (show (-2 : Int) < 0 by norm_num)
    (show (2 : Nat) < 256 by norm_num)
    (show -(2 : Int) ^ 31 ≤ 314 by norm_num)
    (show (314 : Int) < 2 ^ 31 by norm_num)

/-! ### Bit round-trip lemmas -/

theorem unpackOctet_explicit (m : Nat) :
    unpackOctet m = [m.testBit 0, m.testBit 1, m.testBit 2, m.testBit 3,
      m.testBit 4, m.testBit 5, m.testBit 6, m.testBit 7] := rfl

theorem unpackOctet_cons {m n : Nat} {b : Bool} (hm : m = (if b then 1 else 0) + 2 * n) :
    unpackOctet m = b :: (unpackOctet n).dropLast := by
  subst hm
  have h0 : ((if b then 1 else 0) + 2 * n).testBit 0 = b := by
    rw [Nat.testBit_zero]
    cases b <;> simp
  have hdiv : ((if b then 1 else 0) + 2 * n) / 2 = n := by
    cases b <;> simp
    omega
  have hs : ∀ i, ((if b then 1 else 0) + 2 * n).testBit (i + 1) = n.testBit i := by
    intro i
    rw [Nat.testBit_succ, hdiv]
  have e1 : ((if b then 1 else 0) + 2 * n).testBit 1 = n.testBit 0 := hs 0
  have e2 : ((if b then 1 else 0) + 2 * n).testBit 2 = n.testBit 1 := hs 1
  have e3 : ((if b then 1 else 0) + 2 * n).testBit 3 = n.testBit 2 := hs 2
  have e4 : ((if b then 1 else 0) + 2 * n).testBit 4 = n.testBit 3 := hs 3
  have e5 : ((if b then 1 else 0) + 2 * n).testBit 5 = n.testBit 4 := hs 4
  have e6 : ((if b then 1 else 0) + 2 * n).testBit 6 = n.testBit 5 := hs 5
  have e7 : ((if b then 1 else 0) + 2 * n).testBit 7 = n.testBit 6 := hs 6
  rw [unpackOctet_explicit, unpackOctet_explicit, h0, e1, e2, e3, e4, e5, e6, e7]
  rfl

theorem unpackOctet_byteOf :
    ∀ (grp : List Bool), grp.length ≤ 8 →
      unpackOctet (byteOf grp) = grp ++ List.replicate (8 - grp.length) false := by
  intro grp
  induction grp with
  | nil => intro _; rfl
  | cons b bs ih =>
    intro h
    rw [List.length_cons] at h
    have hbs : bs.length ≤ 8 := by omega
    rw [unpackOctet_cons
      (show byteOf (b :: bs) = (if b then 1 else 0) + 2 * byteOf bs from rfl), ih hbs]
    have hk : 8 - bs.length = (8 - (bs.length + 1)) + 1 := by omega
    rw [hk, List.replicate_succ', ← List.append_assoc, List.dropLast_concat]
    rfl

theorem decodeBitsN_zero (st : Codec) : decodeBitsN 0 st = .ok ([], st) := rfl

theorem decodeBitsN_succ (n : Nat) (st : Codec) :
    decodeBitsN (n + 1) st =
      bind2 st.decode_bit (fun b st1 =>
        bind2 (decodeBitsN n st1) (fun bs st2 => .ok (b :: bs, st2))) := rfl

theorem encode_bits_spec :
    ∀ (l : List Bool) (st : Codec),
      Codec.encode_bits st l = { st with outgoing_bits := st.outgoing_bits ++ l } := by
  intro l
  induction l with
  | nil =>
    intro st
    obtain ⟨i, o, nr, nw, ib, ob⟩ := st
    simp [Codec.encode_bits]
  | cons b l ih =>
    intro st
    show Codec.encode_bits (st.encode_bit b) l = _
    rw [ih]
    obtain ⟨i, o, nr, nw, ib, ob⟩ := st
    simp [Codec.encode_bit]

theorem decode_bit_pop {st : Codec} {b : Bool} {rest : List Bool}
    (h : st.incoming_bits = b :: rest) :
    st.decode_bit = .ok (b, { st with incoming_bits := rest }) := by
  obtain ⟨i, o, nr, nw, ib, ob⟩ := st
  simp only at h
  subst h
  rfl

theorem decode_octet_exact {st : Codec} {x : Nat} {rest : List Nat}
    (h : st.input = x :: rest) :
    st.decode_octet = .ok (x, { st with input := rest, nread := st.nread + 1 }) := by
  unfold Codec.decode_octet Codec.decode_short_short_uint
  rw [@unpackUnsigned_exact st [x] rest 1 (by simpa using h) rfl,
    fromBE_singleton]

theorem decode_bit_refill {st : Codec} {x : Nat} {rest : List Nat} {b : Bool}
    {bs : List Bool} (hq : st.incoming_bits = []) (h : st.input = x :: rest)
    (hoct : unpackOctet x = b :: bs) :
    st.decode_bit =
      .ok (b, { st with input := rest, nread := st.nread + 1, incoming_bits := bs }) := by
  obtain ⟨i, o, nr, nw, ib, ob⟩ := st
  simp only at hq h
  subst hq
  unfold Codec.decode_bit
  dsimp only
  rw [decode_octet_exact h, bind2_ok, hoct]

theorem decodeBits_drain :
    ∀ (q pad : List Bool) (st : Codec), st.incoming_bits = q ++ pad →
      decodeBitsN q.length st = .ok (q, { st with incoming_bits := pad }) := by
  intro q
  induction q with
  | nil =>
    intro pad st h
    have hst : ({ st with incoming_bits := pad } : Codec) = st := by
      obtain ⟨i, o, nr, nw, ib, ob⟩ := st
      simp only at h
      rw [List.nil_append] at h
      rw [h]
    rw [hst]
    rfl
  | cons b q' ih =>
    intro pad st h
    show decodeBitsN (q'.length + 1) st = _
    rw [decodeBitsN_succ,
      decode_bit_pop (show st.incoming_bits = b :: (q' ++ pad) from h), bind2_ok]
    rw [ih pad { st with incoming_bits := q' ++ pad } rfl, bind2_ok]

theorem decodeBitsN_add :
    ∀ (m k : Nat) (st : Codec),
      decodeBitsN (m + k) st =
        bind2 (decodeBitsN m st) (fun l1 st1 =>
          bind2 (decodeBitsN k st1) (fun l2 st2 => .ok (l1 ++ l2, st2))) := by
  intro m
  induction m with
  | zero =>
    intro k st
    rw [show 0 + k = k by omega, decodeBitsN_zero, bind2_ok]
    cases hd : decodeBitsN k st with
    | error e => rw [bind2_err]
    | ok p =>
      obtain ⟨l2, st2⟩ := p
      rw [bind2_ok, List.nil_append]
  | succ m ih =>
    intro k st
    rw [show m + 1 + k = (m + k) + 1 by omega,
      decodeBitsN_succ (m + k) st, decodeBitsN_succ m st]
    cases hd : st.decode_bit with
    | error e => simp only [bind2_err]
    | ok p =>
      obtain ⟨b, st1⟩ := p
      simp only [bind2_ok]
      rw [ih k st1]
      cases hm : decodeBitsN m st1 with
      | error e => simp only [bind2_err]
      | ok p2 =>
        obtain ⟨l1, st1x⟩ := p2
        simp only [bind2_ok]
        cases hk : decodeBitsN k st1x with
        | error e => simp only [bind2_err]
        | ok p3 =>
          obtain ⟨l2, st2⟩ := p3
          simp only [bind2_ok]
          rfl

theorem decodeChunk (grp : List Bool) (st : Codec) (rest : List Nat)
    (h1 : 1 ≤ grp.length) (h8 : grp.length ≤ 8)
    (hq : st.incoming_bits = []) (hin : st.input = byteOf grp :: rest) :
    decodeBitsN grp.length st =
      .ok (grp, { st with
                  input := rest,
                  nread := st.nread + 1,
                  incoming_bits := List.replicate (8 - grp.length) false }) := by
  cases grp with
  | nil => simp at h1
  | cons g gs =>
    rw [List.length_cons] at h8 ⊢
    rw [decodeBitsN_succ]
    have hoct : unpackOctet (byteOf (g :: gs)) =
        g :: (gs ++ List.replicate (8 - (gs.length + 1)) false) := by
      rw [unpackOctet_byteOf (g :: gs) (by rw [List.length_cons]; omega),
        List.length_cons]
      rfl
    rw [decode_bit_refill hq hin hoct, bind2_ok]
    rw [decodeBits_drain gs (List.replicate (8 - (gs.length + 1)) false) _ rfl, bind2_ok]

theorem decodeBits_packBits :
    ∀ (n : Nat) (bits : List Bool), bits.length ≤ n →
      ∀ (st : Codec) (tail : List Nat),
        st.incoming_bits = [] → st.input = packBits bits ++ tail →
        ∃ st', decodeBitsN bits.length st = .ok (bits, st') ∧
          st'.input = tail ∧ st'.nread = st.nread + (packBits bits).length := by
  intro n
  induction n with
  | zero =>
    intro bits h st tail hq hin
    have hb : bits = [] := List.eq_nil_of_length_eq_zero (by omega)
    subst hb
    refine ⟨st, rfl, ?_, rfl⟩
    rw [hin]
    rfl
  | succ n ih =>
    intro bits h st tail hq hin
    cases bits with
    | nil =>
      refine ⟨st, rfl, ?_, rfl⟩
      rw [hin]
      rfl
    | cons b bs =>
      by_cases h8 : (b :: bs).length ≤ 8
      · have hgrp : (b :: bs).take 8 = b :: bs := List.take_of_length_le h8
        have hdr : (b :: bs).drop 8 = [] := List.drop_eq_nil_of_le h8
        have hpb : packBits (b :: bs) = [byteOf (b :: bs)] := by
          rw [packBits_cons, hgrp, hdr]
          rfl
        have hin' : st.input = byteOf (b :: bs) :: tail := by
          rw [hin, hpb]
          rfl
        have hchunk := decodeChunk (b :: bs) st tail (by simp) h8 hq hin'
        refine ⟨_, hchunk, rfl, ?_⟩
        rw [hpb]
        rfl
      · push_neg at h8
        rw [List.length_cons] at h8 h
        have hlen8 : ((b :: bs).take 8).length = 8 := by
          rw [List.length_take, List.length_cons]
          omega
        have hsplit : (b :: bs).take 8 ++ (b :: bs).drop 8 = b :: bs :=
          List.take_append_drop 8 (b :: bs)
        have hlensum :
            (b :: bs).length = ((b :: bs).take 8).length + ((b :: bs).drop 8).length := by
          rw [List.length_take, List.length_drop, List.length_cons]
          omega
        rw [hlensum, decodeBitsN_add]
        have hin' : st.input =
            byteOf ((b :: bs).take 8) :: (packBits ((b :: bs).drop 8) ++ tail) := by
          rw [hin, packBits_cons]
          rfl
        have hchunk := decodeChunk ((b :: bs).take 8) st
          (packBits ((b :: bs).drop 8) ++ tail)
          (by rw [hlen8]; omega) (by rw [hlen8]) hq hin'
        obtain ⟨st', hdec, hin2, hnr⟩ :=
          ih ((b :: bs).drop 8)
            (by rw [List.length_drop, List.length_cons]; omega)
            { st with input := packBits ((b :: bs).drop 8) ++ tail,
                      nread := st.nread + 1,
                      incoming_bits := List.replicate (8 - ((b :: bs).take 8).length) false }
            tail (by simp; omega) rfl
        refine ⟨st', ?_, hin2, ?_⟩
        · rw [hchunk, bind2_ok, hdec, bind2_ok, hsplit]
        · rw [hnr, packBits_cons, List.length_cons]
          dsimp only
          omega

/-- Claim C1: encoding any finite sequence of N booleans with `encode_bit`,
then flushing, then decoding N booleans with `decode_bit` from the produced
bytes yields the original sequence in order, and the number of bytes written
by the flush equals `(N + 7) / 8 = ceil(N/8)` (zero bytes when N = 0). -/
theorem c1_bit_roundtrip (bits : List Bool) :
    ∃ st, Codec.flush (Codec.encode_bits (Codec.init []) bits) = .ok st ∧
      st.output.length = (bits.length + 7) / 8 ∧
      (bits.length = 0 → st.output.length = 0) ∧
      ∃ st2, decodeBitsN bits.length (Codec.init st.output) = .ok (bits, st2) := by
  have hst1 : Codec.encode_bits (Codec.init []) bits = ⟨[], [], 0, 0, [], bits⟩ := by
    rw [encode_bits_spec]
    rfl
  have hfl : Codec.flushbits (⟨[], [], 0, 0, [], bits⟩ : Codec) =
      .ok ⟨[], packBits bits, 0, 0 + (packBits bits).length, [], []⟩ := by
    rw [Codec.flushbits_eq]
    rfl
  rw [hst1]
  refine ⟨⟨[], packBits bits, 0, 0 + (packBits bits).length, [], []⟩, ?_, ?_, ?_, ?_⟩
  · show Codec.flushbits _ = _
    exact hfl
  · show (packBits bits).length = _
    exact packBits_length bits
  · intro h0
    have hb : bits = [] := List.eq_nil_of_length_eq_zero h0
    subst hb
    rfl
  · obtain ⟨st', hdec, _, _⟩ :=
      decodeBits_packBits bits.length bits le_rfl
        (Codec.init (packBits bits)) [] rfl (by simp [Codec.init])
    exact ⟨st', hdec⟩

end TxAmqp
